import Mathlib

set_option maxRecDepth 40000

/-!
Verification of the subtitle resegmentation engine of
`transcript_modify.py` (text normalizer, cue decoder, block encoder and
paragraph aligner).  All definitions in this file are shallow embeddings
transcribed from that source file: strings are lists of characters
(restricted to the ASCII whitespace and digit classes where the source
relies on Python's character classes), float seconds are modelled as
exact rationals, and the fallible decoder returns an `Except` value in
place of the source's exceptions.
-/

/-- Whitespace characters as used by the source: space, tab, newline,
carriage return, vertical tab and form feed (the ASCII part of the
whitespace class matched by the source's regular expressions and
`str.strip`). -/
def isSpace (c : Char) : Bool :=
  c = ' ' || c = '\t' || c = '\n' || c = '\r' || c = '\x0b' || c = '\x0c'

/-- Line-break characters recognised when a block is split into lines
(the ASCII part of the break set of `str.splitlines`; a carriage return
immediately followed by a newline counts as a single break). -/
def isLinebreak (c : Char) : Bool :=
  c = '\n' || c = '\r' || c = '\x0b' || c = '\x0c'

/-- Character replacement performed by `normalize_text`: curly double
quotes become straight double quotes, curly single quotes become
apostrophes, em and en dashes become hyphens; every other character is
unchanged.  The sequential whole-string replacements of the source each
replace one character by one character and no replacement output is
itself replaced later, so they amount to this single character map. -/
def replaceChar (c : Char) : Char :=
  if c = '“' || c = '”' then '"'
  else if c = '‘' || c = '’' then '\''
  else if c = '—' || c = '–' then '-'
  else c

/-- Collapse every maximal run of whitespace into a single space, as the
source's substitution of the whitespace-run pattern by one space does. -/
def collapseWS : List Char → List Char
  | [] => []
  | [c] => if isSpace c then [' '] else [c]
  | c1 :: c2 :: rest =>
    if isSpace c1 && isSpace c2 then collapseWS (c2 :: rest)
    else (if isSpace c1 then ' ' else c1) :: collapseWS (c2 :: rest)

/-- Remove trailing whitespace. -/
def dropTrailingWS (l : List Char) : List Char :=
  (l.reverse.dropWhile isSpace).reverse

/-- Python `str.strip`: remove leading and trailing whitespace. -/
def stripChars (l : List Char) : List Char :=
  dropTrailingWS (l.dropWhile isSpace)

/-- Lean model of `normalize_text`: replace quote and dash variants,
collapse whitespace runs to single spaces, strip both ends. -/
def normalize_text (l : List Char) : List Char :=
  stripChars (collapseWS (l.map replaceChar))

/-- Python `s.startswith(p)`: `startswith s p` is true when `p` is an
initial segment of `s`. -/
def startswith : List Char → List Char → Bool
  | _, [] => true
  | [], _ :: _ => false
  | c :: s, d :: p => c = d && startswith s p

/-- Helper of `wordsOf`; the first argument is the reversed current
word. -/
def wordsAux : List Char → List Char → List (List Char)
  | cur, [] => if cur.isEmpty then [] else [cur.reverse]
  | cur, c :: rest =>
    if isSpace c then
      if cur.isEmpty then wordsAux [] rest else cur.reverse :: wordsAux [] rest
    else wordsAux (c :: cur) rest

/-- Python `str.split()` with no argument: split on whitespace runs,
dropping empty pieces. -/
def wordsOf (l : List Char) : List (List Char) := wordsAux [] l

/-- Helper of `splitOnChar`; the first argument is the reversed current
piece. -/
def splitOnCharAux (sep : Char) : List Char → List Char → List (List Char)
  | cur, [] => [cur.reverse]
  | cur, c :: rest =>
    if c = sep then cur.reverse :: splitOnCharAux sep [] rest
    else splitOnCharAux sep (c :: cur) rest

/-- Python `str.split(sep)` for a one-character separator. -/
def splitOnChar (sep : Char) (l : List Char) : List (List Char) :=
  splitOnCharAux sep [] l

/-- Helper of `splitlines`; the first argument is the reversed current
line. -/
def splitlinesAux : List Char → List Char → List (List Char)
  | cur, [] => if cur.isEmpty then [] else [cur.reverse]
  | cur, '\r' :: '\n' :: rest => cur.reverse :: splitlinesAux [] rest
  | cur, c :: rest =>
    if isLinebreak c then cur.reverse :: splitlinesAux [] rest
    else splitlinesAux (c :: cur) rest

/-- Python `str.splitlines` restricted to the ASCII break set: no final
empty line is produced for a trailing break. -/
def splitlines (l : List Char) : List (List Char) := splitlinesAux [] l

/-- Number of newline characters in a list. -/
def countNL (l : List Char) : Nat := l.count '\n'

/-- Scanner for the source's block separator: the regular-expression
split on a newline, optional whitespace, newline pattern.  `pending` is
the reversed current block; `buf`, when present, is the reversed
whitespace run (starting with a newline) whose separator status is not
yet decided.  The greedy match consumes the run up to its last newline;
whitespace after that newline stays with the next block. -/
def goSplit : List Char → Option (List Char) → List Char → List (List Char)
  | pending, none, [] => [pending.reverse]
  | pending, some buf, [] =>
    if 2 ≤ countNL buf then
      pending.reverse :: [(buf.takeWhile (fun c => c ≠ '\n')).reverse]
    else [(buf ++ pending).reverse]
  | pending, none, c :: rest =>
    if c = '\n' then goSplit pending (some ['\n']) rest
    else goSplit (c :: pending) none rest
  | pending, some buf, c :: rest =>
    if isSpace c then goSplit pending (some (c :: buf)) rest
    else if 2 ≤ countNL buf then
      pending.reverse :: goSplit (c :: buf.takeWhile (fun c => c ≠ '\n')) none rest
    else goSplit (c :: (buf ++ pending)) none rest

/-- The raw blocks of a cue file: the content split at blank-line
separators, as the source's regular-expression split produces them. -/
def splitBlocks (content : List Char) : List (List Char) :=
  goSplit [] none content

/-- Numeric value of an ASCII digit character. -/
def digitVal (c : Char) : Nat := c.toNat - 48

/-- Value of a list of ASCII digit characters, most significant first. -/
def digitsVal (l : List Char) : Nat :=
  l.foldl (fun a c => 10 * a + digitVal c) 0

/-- Python `str.isdigit` restricted to ASCII: nonempty and all digits. -/
def isdigitStr (l : List Char) : Bool :=
  !l.isEmpty && l.all Char.isDigit

/-- Value of a token that must consist of digits only. -/
def digitsValOpt (l : List Char) : Option Nat :=
  if isdigitStr l then some (digitsVal l) else none

/-- Python `int()` on a token, restricted to an optional sign followed
by ASCII decimal digits (underscores and non-ASCII digits are outside
the modelled alphabet); surrounding whitespace is stripped. -/
def pyParseInt (l : List Char) : Option Int :=
  match stripChars l with
  | [] => none
  | c :: rest =>
    if c = '+' then (digitsValOpt rest).map fun n => (n : Int)
    else if c = '-' then (digitsValOpt rest).map fun n => -(n : Int)
    else (digitsValOpt (c :: rest)).map fun n => (n : Int)

/-- Value of an unsigned decimal literal with integer part `ip` and
fractional part `fp`. -/
def floatDigitsVal (ip fp : List Char) : ℚ :=
  (digitsVal ip : ℚ) + (digitsVal fp : ℚ) / (10 : ℚ) ^ fp.length

/-- Unsigned part of `pyParseFloat`: digits with an optional decimal
point, at least one digit in total. -/
def pyParseFloatCore (l : List Char) : Option ℚ :=
  match splitOnChar '.' l with
  | [ip] => if isdigitStr ip then some ((digitsVal ip : ℚ)) else none
  | [ip, fp] =>
    if (ip.all Char.isDigit && fp.all Char.isDigit) && !(ip.isEmpty && fp.isEmpty) then
      some (floatDigitsVal ip fp)
    else none
  | _ => none

/-- Python `float()` on a token, restricted to plain decimal notation
(no exponents or specials); surrounding whitespace is stripped. -/
def pyParseFloat (l : List Char) : Option ℚ :=
  match stripChars l with
  | [] => none
  | c :: rest =>
    if c = '+' then pyParseFloatCore rest
    else if c = '-' then (pyParseFloatCore rest).map Neg.neg
    else pyParseFloatCore (c :: rest)

/-- Lean model of `parse_srt_time`: split a timestamp on colons into
hours, minutes and a seconds-milliseconds field, split the latter on a
comma, and combine `int(hours)*3600 + int(minutes)*60 + int(seconds) +
float(millis)/1000`.  The unpack and conversion errors the source can
raise are modelled as `none`. -/
def parse_srt_time (timestr : List Char) : Option ℚ :=
  match splitOnChar ':' timestr with
  | [hours, minutes, seconds_milli] =>
    match splitOnChar ',' seconds_milli with
    | [seconds, millis] => do
      let h ← pyParseInt hours
      let m ← pyParseInt minutes
      let s ← pyParseInt seconds
      let ms ← pyParseFloat millis
      pure ((h : ℚ) * 3600 + (m : ℚ) * 60 + (s : ℚ) + ms / 1000)
    | _ => none
  | _ => none

/-- One cue: the source represents it as a tuple of block index, start
seconds, end seconds and combined text.  Float seconds are modelled as
exact rationals; `stop` is the tuple's end field. -/
structure SrtBlock where
  idx : Int
  start : ℚ
  stop : ℚ
  text : List Char
deriving DecidableEq

/-- Fatal decode failure: the exception escaping `parse_srt` when a
block whose first line is numeric has a missing or unparseable time
line. -/
inductive FormatError where
  | formatError
deriving DecidableEq

deriving instance DecidableEq for Except

/-- Processing of one raw block by `parse_srt`: an empty block or one
whose first line is not all digits is skipped (`none`); a missing or
unparseable time line is a fatal error; otherwise the cue is built from
the index line, the two timestamps and the space-joined stripped
subtitle lines. -/
def parseBlock (block : List Char) : Except FormatError (Option SrtBlock) :=
  match splitlines (stripChars block) with
  | [] => .ok none
  | l0 :: restLines =>
    let index_str := stripChars l0
    if isdigitStr index_str then
      match restLines with
      | [] => .error .formatError
      | l1 :: subtitle_lines =>
        let time_line := stripChars l1
        match wordsOf time_line with
        | [start_str, _, end_str] =>
          match parse_srt_time start_str, parse_srt_time end_str with
          | some s, some e =>
            .ok (some ⟨(digitsVal index_str : Nat), s, e,
              stripChars (List.intercalate [' '] (subtitle_lines.map stripChars))⟩)
          | _, _ => .error .formatError
        | _ => .error .formatError
    else .ok none

/-- Fold of `parseBlock` over the raw blocks, in order; the first fatal
error aborts the whole decode. -/
def parseBlocksList : List (List Char) → Except FormatError (List SrtBlock)
  | [] => .ok []
  | b :: bs => do
    let r ← parseBlock b
    let rest ← parseBlocksList bs
    match r with
    | none => pure rest
    | some cue => pure (cue :: rest)

/-- Lean model of `parse_srt` on the file content (the source reads the
file and strips the content before splitting it into blocks). -/
def parse_srt (content : List Char) : Except FormatError (List SrtBlock) :=
  parseBlocksList (splitBlocks (stripChars content))

/-- Little-endian digit extraction with fuel; `natDigitsAux n n` yields
the reversed decimal digits of a positive `n`. -/
def natDigitsAux : Nat → Nat → List Char
  | _, 0 => []
  | 0, _ + 1 => []
  | fuel + 1, n + 1 => Char.ofNat (48 + (n + 1) % 10) :: natDigitsAux fuel ((n + 1) / 10)

/-- Decimal digits of a natural number, most significant first. -/
def decRepr (n : Nat) : List Char :=
  if n = 0 then ['0'] else (natDigitsAux n n).reverse

/-- Left-pad a digit string with zeros to the given width. -/
def zfill (w : Nat) (ds : List Char) : List Char :=
  List.replicate (w - ds.length) '0' ++ ds

/-- Python zero-padded integer formatting of the given minimum width;
the sign occupies part of the width, as in the source's format
specifiers. -/
def intPad (w : Nat) (z : Int) : List Char :=
  if z < 0 then '-' :: zfill (w - 1) (decRepr z.natAbs) else zfill w (decRepr z.toNat)

/-- Python plain integer formatting. -/
def intRepr (z : Int) : List Char :=
  if z < 0 then '-' :: decRepr z.natAbs else decRepr z.toNat

/-- Python float floor division `a // b`, modelled on exact rationals. -/
def pyFloorDiv (a b : ℚ) : ℚ := ((⌊a / b⌋ : Int) : ℚ)

/-- Python float modulo for a positive divisor. -/
def pyMod (a b : ℚ) : ℚ := a - b * ((⌊a / b⌋ : Int) : ℚ)

/-- Python `int()` truncation toward zero. -/
def pyTrunc (q : ℚ) : Int := if 0 ≤ q then ⌊q⌋ else ⌈q⌉

/-- Python `round()` to an integer: round half to even. -/
def pyRound (q : ℚ) : Int :=
  if q - (⌊q⌋ : ℚ) < 1 / 2 then ⌊q⌋
  else if (1 : ℚ) / 2 < q - (⌊q⌋ : ℚ) then ⌊q⌋ + 1
  else if ⌊q⌋ % 2 = 0 then ⌊q⌋ else ⌊q⌋ + 1

/-- Lean model of `format_srt_time`: hours, minutes and seconds by
integer division, milliseconds by rounding the fractional part, each
zero-padded (hours, minutes, seconds to two digits, milliseconds to
three). -/
def format_srt_time (total_seconds : ℚ) : List Char :=
  let hours := pyTrunc (pyFloorDiv total_seconds 3600)
  let remainder := pyMod total_seconds 3600
  let minutes := pyTrunc (pyFloorDiv remainder 60)
  let seconds := pyTrunc (pyMod remainder 60)
  let millis := pyRound ((total_seconds - (pyTrunc total_seconds : ℚ)) * 1000)
  intPad 2 hours ++ ':' :: intPad 2 minutes ++ ':' :: intPad 2 seconds ++ ',' :: intPad 3 millis

/-- Lean model of `write_srt`: the file content written for the merged
blocks, one chunk per block consisting of the index line, the time line
and the stripped text followed by a blank-line separator. -/
def write_srt (merged_blocks : List SrtBlock) : List Char :=
  (merged_blocks.map fun b =>
    intRepr b.idx ++ '\n' ::
      (format_srt_time b.start ++ " --> ".data ++ format_srt_time b.stop) ++ '\n' ::
        (stripChars b.text ++ "\n\n".data)).flatten

/-- Outcome of one paragraph attempt of the aligner: a match consuming
the reported number of cues with the recorded start and end times, an
abort on a cue that neither completes nor extends the paragraph, or
exhaustion of the cue list. -/
inductive AttemptResult where
  | matched (consumed : Nat) (startTime endTime : ℚ)
  | aborted
  | exhausted
deriving DecidableEq

/-- The inner while loop of `merge_srt_by_paragraph`, transcribed over
the remaining cues: record the start time from the first cue and the
end time from the current cue, extend the accumulated text (with a
space separator when nonempty), then compare its normalization against
the normalized paragraph. -/
def attemptGo (pnorm : List Char) : List Char → Option ℚ → List SrtBlock → AttemptResult
  | _, _, [] => .exhausted
  | accumulated_text, start_time, c :: rest =>
    let s := start_time.getD c.start
    let acc2 := if accumulated_text.isEmpty then c.text
                else accumulated_text ++ ' ' :: c.text
    let accum_norm := normalize_text acc2
    if accum_norm = pnorm then .matched 1 s c.stop
    else if startswith pnorm accum_norm then
      match attemptGo pnorm acc2 (some s) rest with
      | .matched k s' e' => .matched (k + 1) s' e'
      | r => r
    else .aborted

/-- The paragraph loop of `merge_srt_by_paragraph`: on a match the block
is committed, the output index incremented and the cursor advanced past
the consumed cues; on an abort the cursor is reset to the attempt start;
on exhaustion the cursor remains at the end of the cue list. -/
def merge_go (srt_blocks : List SrtBlock) : List (List Char) → Int → Nat → List SrtBlock
  | [], _, _ => []
  | paragraph :: ps, current_index, srt_i =>
    match attemptGo (normalize_text paragraph) [] none (srt_blocks.drop srt_i) with
    | .matched k s e =>
      ⟨current_index, s, e, paragraph⟩ :: merge_go srt_blocks ps (current_index + 1) (srt_i + k)
    | .aborted => merge_go srt_blocks ps current_index srt_i
    | .exhausted => merge_go srt_blocks ps current_index srt_blocks.length

/-- Lean model of `merge_srt_by_paragraph`. -/
def merge_srt_by_paragraph (srt_blocks : List SrtBlock) (paragraphs : List (List Char)) :
    List SrtBlock :=
  merge_go srt_blocks paragraphs 1 0

/-- Consumed-cue ranges of the committed blocks: for each committed
block, in output order, the cursor value at the start of its successful
attempt and the number of cues that attempt consumed. -/
def mergeRanges (srt_blocks : List SrtBlock) : List (List Char) → Nat → List (Nat × Nat)
  | [], _ => []
  | paragraph :: ps, srt_i =>
    match attemptGo (normalize_text paragraph) [] none (srt_blocks.drop srt_i) with
    | .matched k _ _ => (srt_i, k) :: mergeRanges srt_blocks ps (srt_i + k)
    | .aborted => mergeRanges srt_blocks ps srt_i
    | .exhausted => mergeRanges srt_blocks ps srt_blocks.length

/-- Cursor value after one paragraph attempt starting at the given
cursor: advanced past the consumed cues on a match, reset to the
attempt start on an abort, left at the end of the cue list on
exhaustion. -/
def attemptCursor (srt_blocks : List SrtBlock) (pnorm : List Char) (srt_i : Nat) : Nat :=
  match attemptGo pnorm [] none (srt_blocks.drop srt_i) with
  | .matched k _ _ => srt_i + k
  | .aborted => srt_i
  | .exhausted => srt_blocks.length

/-- Check that a character list has the exact textual shape of two-digit
hours, minutes and seconds and three-digit milliseconds. -/
def isTimePattern : List Char → Bool
  | [h1, h2, c1, m1, m2, c2, s1, s2, c3, d1, d2, d3] =>
    h1.isDigit && h2.isDigit && c1 = ':' && m1.isDigit && m2.isDigit && c2 = ':' &&
      s1.isDigit && s2.isDigit && c3 = ',' && d1.isDigit && d2.isDigit && d3.isDigit
  | _ => false

/-- A block text that the encoder-decoder round trip can preserve
verbatim: it carries no line breaks and no leading or trailing
whitespace. -/
def textClean (t : List Char) : Bool :=
  stripChars t = t && t.all fun c => !isLinebreak c

/-- Timestamp value recovered after one format and parse round trip:
the integral seconds plus the rounded milliseconds. -/
def rtQ (t : ℚ) : ℚ :=
  ((⌊t⌋ : Int) : ℚ) + ((pyRound ((t - ((⌊t⌋ : Int) : ℚ)) * 1000) : Int) : ℚ) / 1000

/-! ### Helper lemmas about whitespace stripping and splitting -/

theorem length_dropWhile_le (p : Char → Bool) (l : List Char) :
    (l.dropWhile p).length ≤ l.length := by
  induction l with
  | nil => simp
  | cons c rest ih =>
    by_cases h : p c
    · rw [List.dropWhile_cons_of_pos h]
      exact le_trans ih (by simp)
    · rw [List.dropWhile_cons_of_neg h]

theorem dropTrailingWS_nil : dropTrailingWS [] = [] := rfl

theorem dropTrailingWS_cons (c : Char) (l : List Char) :
    dropTrailingWS (c :: l) =
      if dropTrailingWS l = [] then (if isSpace c then [] else [c])
      else c :: dropTrailingWS l := by
  unfold dropTrailingWS
  rw [List.reverse_cons, List.dropWhile_append]
  by_cases h : (l.reverse.dropWhile isSpace).isEmpty
  · rw [if_pos h]
    have h0 : l.reverse.dropWhile isSpace = [] := by
      rwa [List.isEmpty_iff] at h
    rw [h0]
    by_cases hc : isSpace c
    · simp [List.dropWhile, hc]
    · simp [List.dropWhile, hc]
  · rw [if_neg h]
    have h0 : ¬ l.reverse.dropWhile isSpace = [] := by
      rwa [List.isEmpty_iff] at h
    rw [if_neg (by simpa using h0)]
    simp

theorem dropTrailingWS_eq_nil (l : List Char) (h : ∀ c ∈ l, isSpace c = true) :
    dropTrailingWS l = [] := by
  unfold dropTrailingWS
  have : l.reverse.dropWhile isSpace = [] := by
    rw [List.dropWhile_eq_nil_iff]
    intro x hx
    exact h x (List.mem_reverse.mp hx)
  rw [this]
  rfl

theorem all_space_of_dropTrailingWS_eq_nil (l : List Char) (h : dropTrailingWS l = []) :
    ∀ c ∈ l, isSpace c = true := by
  unfold dropTrailingWS at h
  have h2 : l.reverse.dropWhile isSpace = [] := by
    have := congrArg List.reverse h
    simpa using this
  rw [List.dropWhile_eq_nil_iff] at h2
  intro c hc
  exact h2 c (List.mem_reverse.mpr hc)

theorem stripChars_eq_dropWhile_dropTrailing (l : List Char) :
    stripChars l = List.dropWhile isSpace (dropTrailingWS l) := by
  induction l with
  | nil => rfl
  | cons c rest ih =>
    by_cases hc : isSpace c
    · have hl : stripChars (c :: rest) = stripChars rest := by
        unfold stripChars
        rw [List.dropWhile_cons_of_pos hc]
      rw [hl, dropTrailingWS_cons]
      by_cases hrest : dropTrailingWS rest = []
      · rw [if_pos hrest, if_pos hc]
        have hall := all_space_of_dropTrailingWS_eq_nil rest hrest
        have : rest.dropWhile isSpace = [] := List.dropWhile_eq_nil_iff.mpr hall
        unfold stripChars
        rw [this]
        rfl
      · rw [if_neg hrest, List.dropWhile_cons_of_pos hc, ih]
    · unfold stripChars
      rw [List.dropWhile_cons_of_neg (by simpa using hc), dropTrailingWS_cons]
      by_cases hrest : dropTrailingWS rest = []
      · rw [if_pos hrest, if_neg (by simpa using hc),
          List.dropWhile_cons_of_neg (by simpa using hc)]
      · rw [if_neg hrest, List.dropWhile_cons_of_neg (by simpa using hc)]

/-! ### Words view of whitespace splitting -/

/-- Reference formulation of whitespace splitting via `takeWhile` and
`dropWhile`; used only in proofs. -/
def wordsSpec : List Char → List (List Char)
  | [] => []
  | c :: rest =>
    if isSpace c then wordsSpec rest
    else (c :: rest.takeWhile (fun d => !isSpace d)) ::
      wordsSpec (rest.dropWhile (fun d => !isSpace d))
termination_by l => l.length
decreasing_by
  · simp
  · have := length_dropWhile_le (fun d => !isSpace d) rest
    simp only [List.length_cons]
    omega

theorem wordsAux_eq (l : List Char) : ∀ cur : List Char,
    wordsAux cur l =
      if cur.isEmpty then wordsSpec l
      else (cur.reverse ++ l.takeWhile (fun d => !isSpace d)) ::
        wordsSpec (l.dropWhile (fun d => !isSpace d)) := by
  induction l with
  | nil =>
    intro cur
    cases cur <;> simp [wordsAux, wordsSpec]
  | cons c rest ih =>
    intro cur
    by_cases hc : isSpace c
    · rw [show wordsAux cur (c :: rest) =
        (if cur.isEmpty then wordsAux [] rest else cur.reverse :: wordsAux [] rest) by
          simp [wordsAux, hc]]
      rw [List.takeWhile_cons, List.dropWhile_cons]
      simp only [hc, Bool.not_true, Bool.false_eq_true, if_false, ite_false]
      cases cur with
      | nil =>
        simp only [List.isEmpty_nil, if_true, ite_true]
        rw [ih []]
        simp [wordsSpec, hc]
      | cons x xs =>
        simp only [List.isEmpty_cons, Bool.false_eq_true, if_false, ite_false]
        rw [ih []]
        simp [wordsSpec, hc]
    · rw [show wordsAux cur (c :: rest) = wordsAux (c :: cur) rest by simp [wordsAux, hc]]
      rw [ih (c :: cur)]
      rw [List.takeWhile_cons, List.dropWhile_cons]
      simp only [hc, Bool.not_false, if_true, ite_true]
      cases cur with
      | nil =>
        simp only [List.isEmpty_cons, List.isEmpty_nil, Bool.false_eq_true, if_false,
          ite_false, if_true, ite_true]
        rw [show wordsSpec (c :: rest) = (c :: rest.takeWhile (fun d => !isSpace d)) ::
          wordsSpec (rest.dropWhile (fun d => !isSpace d)) by
            rw [wordsSpec]; simp [hc]]
        simp
      | cons x xs =>
        simp

theorem wordsOf_eq_wordsSpec (l : List Char) : wordsOf l = wordsSpec l := by
  rw [wordsOf, wordsAux_eq]
  simp

theorem collapseWS_cons_nonspace (c : Char) (rest : List Char) (hc : isSpace c = false) :
    collapseWS (c :: rest) = c :: collapseWS rest := by
  cases rest with
  | nil => simp [collapseWS, hc]
  | cons d r => simp [collapseWS, hc]

theorem wordsSpec_cons_space (c : Char) (rest : List Char) (hc : isSpace c = true) :
    wordsSpec (c :: rest) = wordsSpec rest := by
  simp only [wordsSpec]
  simp [hc]

theorem wordsSpec_cons_nonspace (c : Char) (rest : List Char) (hc : isSpace c = false) :
    wordsSpec (c :: rest) = (c :: rest.takeWhile (fun d => !isSpace d)) ::
      wordsSpec (rest.dropWhile (fun d => !isSpace d)) := by
  simp only [wordsSpec]
  simp [hc]

theorem intercalate_single (w : List Char) : List.intercalate [' '] [w] = w := by
  simp [List.intercalate]

theorem intercalate_cons_cons (w v : List Char) (ws : List (List Char)) :
    List.intercalate [' '] (w :: v :: ws) = w ++ ' ' :: List.intercalate [' '] (v :: ws) := by
  simp [List.intercalate, List.intersperse]

theorem intercalate_cons_head (c : Char) (w : List Char) (ws : List (List Char)) :
    List.intercalate [' '] ((c :: w) :: ws) = c :: List.intercalate [' '] (w :: ws) := by
  cases ws with
  | nil => rw [intercalate_single, intercalate_single]
  | cons v vs => rw [intercalate_cons_cons, intercalate_cons_cons]; rfl

theorem intercalate_words_ne_nil (w : List Char) (ws : List (List Char)) (hw : w ≠ []) :
    List.intercalate [' '] (w :: ws) ≠ [] := by
  cases ws with
  | nil => rwa [intercalate_single]
  | cons v vs =>
    rw [intercalate_cons_cons]
    cases w with
    | nil => exact absurd rfl hw
    | cons x xs => simp

theorem wordsAux_sound (l : List Char) : ∀ cur : List Char,
    (∀ c ∈ cur, isSpace c = false) →
    ∀ w ∈ wordsAux cur l, w ≠ [] ∧ ∀ c ∈ w, isSpace c = false := by
  induction l with
  | nil =>
    intro cur hcur w hw
    cases cur with
    | nil => simp [wordsAux] at hw
    | cons x xs =>
      simp [wordsAux] at hw
      subst hw
      constructor
      · simp
      · intro c hc
        have hc2 : c ∈ (x :: xs).reverse := by simpa using hc
        exact hcur c (List.mem_reverse.mp hc2)
  | cons c rest ih =>
    intro cur hcur w hw
    by_cases hc : isSpace c
    · rw [show wordsAux cur (c :: rest) =
          (if cur.isEmpty then wordsAux [] rest else cur.reverse :: wordsAux [] rest) by
            simp [wordsAux, hc]] at hw
      cases cur with
      | nil =>
        simp only [List.isEmpty_nil, if_true, ite_true] at hw
        exact ih [] (by simp) w hw
      | cons x xs =>
        simp only [List.isEmpty_cons, Bool.false_eq_true, if_false, ite_false,
          List.mem_cons] at hw
        rcases hw with hw | hw
        · subst hw
          refine ⟨by simp, ?_⟩
          intro a ha
          exact hcur a (List.mem_reverse.mp ha)
        · exact ih [] (by simp) w hw
    · rw [show wordsAux cur (c :: rest) = wordsAux (c :: cur) rest by
        simp [wordsAux, hc]] at hw
      refine ih (c :: cur) ?_ w hw
      intro a ha
      rcases List.mem_cons.mp ha with ha | ha
      · subst ha
        simpa using hc
      · exact hcur a ha

theorem wordsSpec_sound (l : List Char) :
    ∀ w ∈ wordsSpec l, w ≠ [] ∧ ∀ c ∈ w, isSpace c = false := by
  intro w hw
  rw [← wordsOf_eq_wordsSpec] at hw
  exact wordsAux_sound l [] (by simp) w hw

/-- Head-whitespace test used to state the collapse characterization. -/
def headIsSpace : List Char → Bool
  | [] => false
  | c :: _ => isSpace c

theorem dropTrailing_collapse (l : List Char) :
    dropTrailingWS (collapseWS l) =
      if wordsSpec l = [] then []
      else (if headIsSpace l then [' '] else []) ++ List.intercalate [' '] (wordsSpec l) := by
  induction l with
  | nil => simp [collapseWS, wordsSpec, dropTrailingWS_nil]
  | cons c rest ih =>
    by_cases hc : isSpace c
    · cases rest with
      | nil =>
        have h1 : collapseWS [c] = [' '] := by simp [collapseWS, hc]
        have h2 : wordsSpec [c] = [] := by
          rw [wordsSpec_cons_space c [] hc]
          simp [wordsSpec]
        rw [h1, h2, if_pos rfl]
        apply dropTrailingWS_eq_nil
        intro x hx
        simp at hx
        subst hx
        rfl
      | cons d r =>
        have h2 : wordsSpec (c :: d :: r) = wordsSpec (d :: r) :=
          wordsSpec_cons_space c (d :: r) hc
        by_cases hd : isSpace d
        · have h1 : collapseWS (c :: d :: r) = collapseWS (d :: r) := by
            simp [collapseWS, hc, hd]
          rw [h1, h2, ih]
          by_cases hw : wordsSpec (d :: r) = []
          · simp [hw]
          · simp [hw, headIsSpace, hc, hd]
        · have hdf : isSpace d = false := by simpa using hd
          have h1 : collapseWS (c :: d :: r) = ' ' :: collapseWS (d :: r) := by
            simp [collapseWS, hc, hd]
          have hwd := wordsSpec_cons_nonspace d r hdf
          have hwne : wordsSpec (d :: r) ≠ [] := by rw [hwd]; simp
          have hinter : List.intercalate [' '] (wordsSpec (d :: r)) ≠ [] := by
            rw [hwd]
            exact intercalate_words_ne_nil _ _ (by simp)
          rw [h1, dropTrailingWS_cons, ih, if_neg hwne]
          have hne2 : (if headIsSpace (d :: r) then [' '] else []) ++
              List.intercalate [' '] (wordsSpec (d :: r)) ≠ [] := by
            intro hx
            exact hinter (List.append_eq_nil.mp hx).2
          rw [if_neg hne2, h2, if_neg hwne]
          simp [headIsSpace, hc, hdf]
    · have hcf : isSpace c = false := by simpa using hc
      have h1 : collapseWS (c :: rest) = c :: collapseWS rest :=
        collapseWS_cons_nonspace c rest hcf
      have h2 := wordsSpec_cons_nonspace c rest hcf
      rw [h1, h2, dropTrailingWS_cons]
      cases rest with
      | nil =>
        simp only [collapseWS, dropTrailingWS_nil, if_pos rfl, hcf,
          List.takeWhile_nil, List.dropWhile_nil]
        simp [wordsSpec, intercalate_single, headIsSpace, hcf]
      | cons d r =>
        by_cases hd : isSpace d
        · have htw : List.takeWhile (fun x => !isSpace x) (d :: r) = [] := by
            rw [List.takeWhile_cons]
            simp [hd]
          have hdw : List.dropWhile (fun x => !isSpace x) (d :: r) = d :: r := by
            rw [List.dropWhile_cons]
            simp [hd]
          rw [htw, hdw, ih]
          by_cases hw : wordsSpec (d :: r) = []
          · rw [if_pos hw, if_pos rfl, hw]
            simp [intercalate_single, headIsSpace, hcf]
          · rw [if_neg hw]
            have hhead : headIsSpace (d :: r) = true := by simp [headIsSpace, hd]
            rw [hhead]
            obtain ⟨w, ws, hws⟩ : ∃ w ws, wordsSpec (d :: r) = w :: ws := by
              cases hx : wordsSpec (d :: r) with
              | nil => exact absurd hx hw
              | cons w ws => exact ⟨w, ws, rfl⟩
            have hne : (if (true : Bool) then [' '] else []) ++
                List.intercalate [' '] (wordsSpec (d :: r)) ≠ [] := by
              rw [hws]
              have hw0 := (wordsSpec_sound (d :: r) w (by rw [hws]; simp)).1
              intro hx
              exact intercalate_words_ne_nil w ws hw0 (List.append_eq_nil.mp hx).2
            rw [if_neg hne, hws,
              if_neg (show ¬(([c] : List Char) :: w :: ws = []) by simp),
              intercalate_cons_cons]
            simp [headIsSpace, hcf]
        · have hdf : isSpace d = false := by simpa using hd
          have htw : List.takeWhile (fun x => !isSpace x) (d :: r) =
              d :: List.takeWhile (fun x => !isSpace x) r := by
            rw [List.takeWhile_cons]
            simp [hd]
          have hdw : List.dropWhile (fun x => !isSpace x) (d :: r) =
              List.dropWhile (fun x => !isSpace x) r := by
            rw [List.dropWhile_cons]
            simp [hd]
          have hwd := wordsSpec_cons_nonspace d r hdf
          have hwne : wordsSpec (d :: r) ≠ [] := by rw [hwd]; simp
          have ihval : dropTrailingWS (collapseWS (d :: r)) =
              List.intercalate [' '] (wordsSpec (d :: r)) := by
            rw [ih, if_neg hwne]
            simp [headIsSpace, hdf]
          have hinter : List.intercalate [' '] (wordsSpec (d :: r)) ≠ [] := by
            rw [hwd]
            exact intercalate_words_ne_nil _ _ (by simp)
          have hne : dropTrailingWS (collapseWS (d :: r)) ≠ [] := by
            rw [ihval]; exact hinter
          rw [if_neg hne, ihval, htw, hdw,
            if_neg (show ¬((c :: d :: List.takeWhile (fun x => !isSpace x) r) ::
              wordsSpec (List.dropWhile (fun x => !isSpace x) r) = []) by simp),
            hwd, intercalate_cons_head]
          simp [headIsSpace, hcf]
          rw [intercalate_cons_head, intercalate_cons_head]

theorem stripCollapse_eq_intercalate (l : List Char) :
    stripChars (collapseWS l) = List.intercalate [' '] (wordsSpec l) := by
  rw [stripChars_eq_dropWhile_dropTrailing, dropTrailing_collapse]
  by_cases hw : wordsSpec l = []
  · rw [if_pos hw, hw]
    simp [List.intercalate]
  · rw [if_neg hw]
    obtain ⟨w, ws, hws⟩ : ∃ w ws, wordsSpec l = w :: ws := by
      cases hx : wordsSpec l with
      | nil => exact absurd hx hw
      | cons w ws => exact ⟨w, ws, rfl⟩
    have hword := wordsSpec_sound l w (by rw [hws]; simp)
    obtain ⟨x, xs, hx⟩ : ∃ x xs, w = x :: xs := by
      cases hxx : w with
      | nil => exact absurd hxx hword.1
      | cons x xs => exact ⟨x, xs, rfl⟩
    have hxn : isSpace x = false := hword.2 x (by rw [hx]; simp)
    have hstart : List.intercalate [' '] (wordsSpec l) =
        x :: List.intercalate [' '] (xs :: ws) := by
      rw [hws, hx, intercalate_cons_head]
    by_cases hh : headIsSpace l
    · rw [if_pos hh]
      rw [show ([' '] : List Char) ++ List.intercalate [' '] (wordsSpec l) =
        ' ' :: List.intercalate [' '] (wordsSpec l) from rfl]
      rw [List.dropWhile_cons_of_pos (by rfl), hstart,
        List.dropWhile_cons_of_neg (by simp [hxn]), ← hstart]
    · rw [if_neg hh]
      rw [show ([] : List Char) ++ List.intercalate [' '] (wordsSpec l) =
        List.intercalate [' '] (wordsSpec l) from rfl]
      rw [hstart, List.dropWhile_cons_of_neg (by simp [hxn]), ← hstart]

/-- Characterization of the normalizer: normalize a string by mapping
the character replacement and joining the whitespace-separated words
with single spaces. -/
theorem normalize_eq_words (l : List Char) :
    normalize_text l = List.intercalate [' '] (wordsOf (l.map replaceChar)) := by
  rw [normalize_text, stripCollapse_eq_intercalate, wordsOf_eq_wordsSpec]

theorem isSpace_space : isSpace ' ' = true := by decide

theorem wordsAux_append_space (y : List Char) : ∀ (x cur : List Char),
    wordsAux cur (x ++ ' ' :: y) = wordsAux cur x ++ wordsAux [] y := by
  intro x
  induction x with
  | nil =>
    intro cur
    cases cur with
    | nil => simp [wordsAux, isSpace_space]
    | cons a as => simp [wordsAux, isSpace_space]
  | cons c x' ih =>
    intro cur
    by_cases hc : isSpace c
    · cases cur with
      | nil =>
        simp only [List.cons_append]
        rw [show wordsAux [] (c :: (x' ++ ' ' :: y)) = wordsAux [] (x' ++ ' ' :: y) by
            simp [wordsAux, hc],
          show wordsAux [] (c :: x') = wordsAux [] x' by simp [wordsAux, hc]]
        exact ih []
      | cons a as =>
        simp only [List.cons_append]
        rw [show wordsAux (a :: as) (c :: (x' ++ ' ' :: y)) =
            (a :: as).reverse :: wordsAux [] (x' ++ ' ' :: y) by simp [wordsAux, hc],
          show wordsAux (a :: as) (c :: x') = (a :: as).reverse :: wordsAux [] x' by
            simp [wordsAux, hc]]
        rw [ih []]
        simp
    · simp only [List.cons_append]
      rw [show wordsAux cur (c :: (x' ++ ' ' :: y)) = wordsAux (c :: cur) (x' ++ ' ' :: y) by
          simp [wordsAux, hc],
        show wordsAux cur (c :: x') = wordsAux (c :: cur) x' by simp [wordsAux, hc]]
      exact ih (c :: cur)

theorem wordsOf_append_space (x y : List Char) :
    wordsOf (x ++ ' ' :: y) = wordsOf x ++ wordsOf y := by
  rw [wordsOf, wordsOf, wordsOf, wordsAux_append_space]

theorem wordsAux_all_nonspace (l : List Char) : ∀ cur : List Char,
    (∀ c ∈ l, isSpace c = false) → (cur = [] → l ≠ []) →
    wordsAux cur l = [cur.reverse ++ l] := by
  induction l with
  | nil =>
    intro cur hall hne
    cases cur with
    | nil => exact absurd rfl (fun h => hne h rfl)
    | cons a as => simp [wordsAux]
  | cons c rest ih =>
    intro cur hall hne
    have hc : isSpace c = false := hall c (by simp)
    rw [show wordsAux cur (c :: rest) = wordsAux (c :: cur) rest by simp [wordsAux, hc]]
    cases rest with
    | nil => simp [wordsAux]
    | cons d r =>
      rw [ih (c :: cur) (fun a ha => hall a (List.mem_cons_of_mem c ha)) (by simp)]
      simp

theorem wordsOf_all_nonspace (l : List Char) (hne : l ≠ [])
    (hall : ∀ c ∈ l, isSpace c = false) : wordsOf l = [l] := by
  rw [wordsOf, wordsAux_all_nonspace l [] hall (fun _ => hne)]
  simp

theorem wordsAux_chars (l : List Char) : ∀ cur : List Char,
    ∀ w ∈ wordsAux cur l, ∀ c ∈ w, c ∈ cur ∨ c ∈ l := by
  induction l with
  | nil =>
    intro cur w hw c hc
    cases cur with
    | nil => simp [wordsAux] at hw
    | cons a as =>
      simp [wordsAux] at hw
      subst hw
      have hc2 : c ∈ (a :: as).reverse := by simpa using hc
      exact Or.inl (List.mem_reverse.mp hc2)
  | cons x rest ih =>
    intro cur w hw c hc
    by_cases hx : isSpace x
    · rw [show wordsAux cur (x :: rest) =
          (if cur.isEmpty then wordsAux [] rest else cur.reverse :: wordsAux [] rest) by
            simp [wordsAux, hx]] at hw
      cases cur with
      | nil =>
        simp only [List.isEmpty_nil, if_true, ite_true] at hw
        rcases ih [] w hw c hc with h | h
        · simp at h
        · exact Or.inr (List.mem_cons_of_mem x h)
      | cons a as =>
        simp only [List.isEmpty_cons, Bool.false_eq_true, if_false, ite_false,
          List.mem_cons] at hw
        rcases hw with hw | hw
        · subst hw
          have hc2 : c ∈ (a :: as).reverse := by simpa using hc
          exact Or.inl (List.mem_reverse.mp hc2)
        · rcases ih [] w hw c hc with h | h
          · simp at h
          · exact Or.inr (List.mem_cons_of_mem x h)
    · rw [show wordsAux cur (x :: rest) = wordsAux (x :: cur) rest by
        simp [wordsAux, hx]] at hw
      rcases ih (x :: cur) w hw c hc with h | h
      · rcases List.mem_cons.mp h with h | h
        · subst h
          exact Or.inr (by simp)
        · exact Or.inl h
      · exact Or.inr (List.mem_cons_of_mem x h)

theorem wordsOf_chars (l : List Char) :
    ∀ w ∈ wordsOf l, ∀ c ∈ w, c ∈ l := by
  intro w hw c hc
  rcases wordsAux_chars l [] w hw c hc with h | h
  · simp at h
  · exact h

/-! ### The replacement map -/

theorem replaceChar_fixed (c : Char) (h1 : c ≠ '“') (h2 : c ≠ '”') (h3 : c ≠ '‘')
    (h4 : c ≠ '’') (h5 : c ≠ '—') (h6 : c ≠ '–') : replaceChar c = c := by
  unfold replaceChar
  rw [if_neg (by simp [h1, h2]), if_neg (by simp [h3, h4]), if_neg (by simp [h5, h6])]

theorem replaceChar_idem (c : Char) : replaceChar (replaceChar c) = replaceChar c := by
  by_cases h1 : c = '“' ∨ c = '”'
  · have : replaceChar c = '"' := by unfold replaceChar; simp [h1]
    rw [this]
    decide
  · by_cases h2 : c = '‘' ∨ c = '’'
    · have : replaceChar c = '\'' := by
        unfold replaceChar
        rcases h2 with h | h <;> subst h <;> decide
      rw [this]
      decide
    · by_cases h3 : c = '—' ∨ c = '–'
      · have : replaceChar c = '-' := by
          unfold replaceChar
          rcases h3 with h | h <;> subst h <;> decide
        rw [this]
        decide
      · push_neg at h1 h2 h3
        rw [replaceChar_fixed c h1.1 h1.2 h2.1 h2.2 h3.1 h3.2,
          replaceChar_fixed c h1.1 h1.2 h2.1 h2.2 h3.1 h3.2]

theorem isSpace_replaceChar (c : Char) : isSpace (replaceChar c) = isSpace c := by
  by_cases h1 : c = '“' ∨ c = '”'
  · have : replaceChar c = '"' := by unfold replaceChar; simp [h1]
    rw [this]
    rcases h1 with h | h <;> subst h <;> decide
  · by_cases h2 : c = '‘' ∨ c = '’'
    · have : replaceChar c = '\'' := by
        unfold replaceChar
        rcases h2 with h | h <;> subst h <;> decide
      rw [this]
      rcases h2 with h | h <;> subst h <;> decide
    · by_cases h3 : c = '—' ∨ c = '–'
      · have : replaceChar c = '-' := by
          unfold replaceChar
          rcases h3 with h | h <;> subst h <;> decide
        rw [this]
        rcases h3 with h | h <;> subst h <;> decide
      · push_neg at h1 h2 h3
        rw [replaceChar_fixed c h1.1 h1.2 h2.1 h2.2 h3.1 h3.2]

theorem replaceChar_space : replaceChar ' ' = ' ' := by decide

theorem map_replaceChar_intercalate (ws : List (List Char)) :
    (List.intercalate [' '] ws).map replaceChar =
      List.intercalate [' '] (ws.map (List.map replaceChar)) := by
  induction ws with
  | nil => simp [List.intercalate]
  | cons w vs ih =>
    cases vs with
    | nil => simp [intercalate_single]
    | cons v vs' =>
      rw [intercalate_cons_cons, List.map_append]
      rw [show ((' ' :: List.intercalate [' '] (v :: vs')).map replaceChar) =
        ' ' :: (List.intercalate [' '] (v :: vs')).map replaceChar by
          simp [replaceChar_space]]
      rw [ih]
      conv_rhs => rw [List.map_cons, List.map_cons, intercalate_cons_cons]
      rw [List.map_cons]

theorem wordsOf_intercalate (ws : List (List Char))
    (h : ∀ w ∈ ws, w ≠ [] ∧ ∀ c ∈ w, isSpace c = false) :
    wordsOf (List.intercalate [' '] ws) = ws := by
  induction ws with
  | nil => simp [List.intercalate, wordsOf, wordsAux]
  | cons w vs ih =>
    cases vs with
    | nil =>
      rw [intercalate_single]
      rw [wordsOf_all_nonspace w (h w (by simp)).1 (h w (by simp)).2]
    | cons v vs' =>
      rw [intercalate_cons_cons, wordsOf_append_space,
        wordsOf_all_nonspace w (h w (by simp)).1 (h w (by simp)).2,
        ih (fun u hu => h u (List.mem_cons_of_mem w hu))]
      rfl

/-- C6: `normalize_text` is a total, deterministic Lean function on all
character lists, including the empty list, and it is idempotent:
normalizing an already normalized string returns it unchanged. -/
theorem C6_normalize_total_idempotent (l : List Char) :
    normalize_text (normalize_text l) = normalize_text l := by
  rw [normalize_eq_words l]
  have hsound : ∀ w ∈ wordsOf (l.map replaceChar), w ≠ [] ∧ ∀ c ∈ w, isSpace c = false := by
    rw [wordsOf_eq_wordsSpec]
    exact wordsSpec_sound _
  have hchars : ∀ w ∈ wordsOf (l.map replaceChar), ∀ c ∈ w, replaceChar c = c := by
    intro w hw c hc
    have hmem : c ∈ l.map replaceChar := wordsOf_chars _ w hw c hc
    obtain ⟨a, _, rfl⟩ := List.mem_map.mp hmem
    exact replaceChar_idem a
  have hword : ∀ w ∈ wordsOf (l.map replaceChar), w.map replaceChar = w := by
    intro w hw
    conv_rhs => rw [← List.map_id w]
    exact List.map_congr_left fun a ha => hchars w hw a ha
  have hmap : (List.intercalate [' '] (wordsOf (l.map replaceChar))).map replaceChar =
      List.intercalate [' '] (wordsOf (l.map replaceChar)) := by
    rw [map_replaceChar_intercalate]
    congr 1
    conv_rhs => rw [← List.map_id (wordsOf (l.map replaceChar))]
    exact List.map_congr_left fun w hw => by rw [hword w hw]; rfl
  rw [normalize_eq_words (List.intercalate [' '] (wordsOf (l.map replaceChar))), hmap,
    wordsOf_intercalate _ hsound, ← normalize_eq_words l]

/-! ### The aligner's accumulated text -/

/-- Accumulated text built by the attempt loop from an initial value and
the texts of the consumed cues, exactly as the loop extends it. -/
def accumJoin (acc : List Char) (ts : List (List Char)) : List Char :=
  ts.foldl (fun x t => if x.isEmpty then t else x ++ ' ' :: t) acc

theorem accumJoin_nil (acc : List Char) : accumJoin acc [] = acc := rfl

theorem accumJoin_cons (acc t : List Char) (ts : List (List Char)) :
    accumJoin acc (t :: ts) = accumJoin (if acc.isEmpty then t else acc ++ ' ' :: t) ts := rfl

/-- Words of a string after the character replacement; the normalizer
returns exactly these words joined by single spaces. -/
def wordsN (l : List Char) : List (List Char) := wordsOf (l.map replaceChar)

theorem normalize_eq_wordsN (l : List Char) :
    normalize_text l = List.intercalate [' '] (wordsN l) := normalize_eq_words l

theorem wordsN_nil : wordsN [] = [] := rfl

theorem wordsN_append_space (a b : List Char) :
    wordsN (a ++ ' ' :: b) = wordsN a ++ wordsN b := by
  rw [wordsN, List.map_append, List.map_cons, replaceChar_space, wordsOf_append_space]
  rfl

theorem wordsN_accumJoin (ts : List (List Char)) : ∀ acc : List Char,
    wordsN (accumJoin acc ts) = wordsN acc ++ (ts.map wordsN).flatten := by
  induction ts with
  | nil =>
    intro acc
    simp [accumJoin_nil]
  | cons t ts ih =>
    intro acc
    rw [accumJoin_cons]
    by_cases ha : acc.isEmpty = true
    · have ha0 : acc = [] := by rwa [List.isEmpty_iff] at ha
      subst ha0
      rw [if_pos (show ([] : List Char).isEmpty = true from rfl), ih t]
      simp [wordsN_nil]
    · rw [if_neg ha, ih, wordsN_append_space]
      simp

theorem wordsN_intercalate (ts : List (List Char)) :
    wordsN (List.intercalate [' '] ts) = (ts.map wordsN).flatten := by
  induction ts with
  | nil => simp [List.intercalate, wordsN_nil]
  | cons t ts ih =>
    cases ts with
    | nil => simp [intercalate_single]
    | cons v vs =>
      rw [intercalate_cons_cons, wordsN_append_space, ih]
      simp

theorem normalize_accumJoin (ts : List (List Char)) :
    normalize_text (accumJoin [] ts) = normalize_text (List.intercalate [' '] ts) := by
  rw [normalize_eq_wordsN, normalize_eq_wordsN, wordsN_accumJoin ts [], wordsN_intercalate,
    wordsN_nil]
  rfl

/-! ### Characterization of a successful attempt -/

theorem attemptGo_nil (pnorm acc : List Char) (s0 : Option ℚ) :
    attemptGo pnorm acc s0 [] = .exhausted := rfl

theorem attemptGo_cons (pnorm acc : List Char) (s0 : Option ℚ) (c : SrtBlock)
    (rest : List SrtBlock) :
    attemptGo pnorm acc s0 (c :: rest) =
      (if normalize_text (if acc.isEmpty then c.text else acc ++ ' ' :: c.text) = pnorm then
        .matched 1 (s0.getD c.start) c.stop
      else if startswith pnorm
          (normalize_text (if acc.isEmpty then c.text else acc ++ ' ' :: c.text)) then
        match attemptGo pnorm (if acc.isEmpty then c.text else acc ++ ' ' :: c.text)
            (some (s0.getD c.start)) rest with
        | .matched k s' e' => .matched (k + 1) s' e'
        | r => r
      else .aborted) := rfl

theorem attemptGo_matched_spec (cs : List SrtBlock) : ∀ (pnorm acc : List Char)
    (s0 : Option ℚ) (k : Nat) (s e : ℚ), attemptGo pnorm acc s0 cs = .matched k s e →
    1 ≤ k ∧ k ≤ cs.length ∧
    (∃ c0 cs', cs = c0 :: cs' ∧ s = s0.getD c0.start) ∧
    (∃ cl, (cs.take k).getLast? = some cl ∧ e = cl.stop) ∧
    normalize_text (accumJoin acc ((cs.take k).map SrtBlock.text)) = pnorm := by
  induction cs with
  | nil =>
    intro pnorm acc s0 k s e h
    rw [attemptGo_nil] at h
    exact absurd h (by simp)
  | cons c rest ih =>
    intro pnorm acc s0 k s e h
    rw [attemptGo_cons] at h
    by_cases hmatch : normalize_text (if acc.isEmpty then c.text else acc ++ ' ' :: c.text)
        = pnorm
    · rw [if_pos hmatch] at h
      injection h with hk hs he
      subst hk
      subst hs
      subst he
      refine ⟨le_refl 1, by simp, ⟨c, rest, rfl, rfl⟩, ⟨c, by simp, rfl⟩, ?_⟩
      rw [show (c :: rest).take 1 = [c] by simp]
      rw [show ([c].map SrtBlock.text) = [c.text] from rfl]
      rw [accumJoin_cons, accumJoin_nil]
      exact hmatch
    · rw [if_neg hmatch] at h
      by_cases hpre : startswith pnorm
          (normalize_text (if acc.isEmpty then c.text else acc ++ ' ' :: c.text)) = true
      · rw [if_pos hpre] at h
        cases hres : attemptGo pnorm (if acc.isEmpty then c.text else acc ++ ' ' :: c.text)
            (some (s0.getD c.start)) rest with
        | matched k' s' e' =>
          rw [hres] at h
          simp only at h
          injection h with hk hs he
          obtain ⟨hk1, hk2, ⟨c0, cs', hrest, hs'⟩, ⟨cl, hcl, he'⟩, hnorm⟩ :=
            ih pnorm _ (some (s0.getD c.start)) k' s' e' hres
          subst hk
          refine ⟨by omega, by simp; omega, ⟨c, rest, rfl, ?_⟩, ⟨cl, ?_, by rw [← he, he']⟩, ?_⟩
          · rw [← hs, hs']
            rfl
          · rw [List.take_succ_cons]
            have htk : rest.take k' ≠ [] := by
              rw [hrest]
              cases k' with
              | zero => omega
              | succ m => simp
            cases hx : rest.take k' with
            | nil => exact absurd hx htk
            | cons y ys =>
              rw [hx] at hcl
              rwa [List.getLast?_cons_cons]
          · rw [List.take_succ_cons, List.map_cons, accumJoin_cons]
            exact hnorm
        | aborted =>
          rw [hres] at h
          exact absurd h (by simp)
        | exhausted =>
          rw [hres] at h
          exact absurd h (by simp)
      · rw [if_neg hpre] at h
        exact absurd h (by simp)

/-! ### Merge-level lemmas -/

theorem merge_go_nil (cues : List SrtBlock) (idx : Int) (i : Nat) :
    merge_go cues [] idx i = [] := rfl

theorem merge_go_cons (cues : List SrtBlock) (p : List Char) (ps : List (List Char))
    (idx : Int) (i : Nat) :
    merge_go cues (p :: ps) idx i =
      (match attemptGo (normalize_text p) [] none (cues.drop i) with
      | .matched k s e => ⟨idx, s, e, p⟩ :: merge_go cues ps (idx + 1) (i + k)
      | .aborted => merge_go cues ps idx i
      | .exhausted => merge_go cues ps idx cues.length) := rfl

theorem merge_go_length_le (cues : List SrtBlock) : ∀ (ps : List (List Char)) (idx : Int)
    (i : Nat), (merge_go cues ps idx i).length ≤ ps.length := by
  intro ps
  induction ps with
  | nil =>
    intro idx i
    simp [merge_go_nil]
  | cons p ps ih =>
    intro idx i
    rw [merge_go_cons]
    cases h : attemptGo (normalize_text p) [] none (cues.drop i) with
    | matched k s e =>
      simp only [List.length_cons]
      exact Nat.succ_le_succ (ih (idx + 1) (i + k))
    | aborted =>
      simp only [List.length_cons]
      exact le_trans (ih idx i) (by omega)
    | exhausted =>
      simp only [List.length_cons]
      exact le_trans (ih idx cues.length) (by omega)

/-- C8: the aligner returns at most one block per paragraph. -/
theorem C8_count_bound (cues : List SrtBlock) (paragraphs : List (List Char)) :
    (merge_srt_by_paragraph cues paragraphs).length ≤ paragraphs.length :=
  merge_go_length_le cues paragraphs 1 0

theorem merge_go_mem (cues : List SrtBlock) : ∀ (ps : List (List Char)) (idx : Int)
    (i : Nat) (b : SrtBlock), b ∈ merge_go cues ps idx i →
    ∃ p j k, p ∈ ps ∧ b.text = p ∧ 1 ≤ k ∧ j + k ≤ cues.length ∧
      (∃ c0, (cues.drop j).head? = some c0 ∧ b.start = c0.start) ∧
      (∃ cl, ((cues.drop j).take k).getLast? = some cl ∧ b.stop = cl.stop) ∧
      normalize_text (List.intercalate [' '] (((cues.drop j).take k).map SrtBlock.text)) =
        normalize_text p := by
  intro ps
  induction ps with
  | nil =>
    intro idx i b hb
    simp [merge_go_nil] at hb
  | cons p ps ih =>
    intro idx i b hb
    rw [merge_go_cons] at hb
    cases h : attemptGo (normalize_text p) [] none (cues.drop i) with
    | matched k s e =>
      rw [h] at hb
      simp only [List.mem_cons] at hb
      rcases hb with hb | hb
      · subst hb
        obtain ⟨hk1, hk2, ⟨c0, cs', hdrop, hs⟩, ⟨cl, hcl, he⟩, hnorm⟩ :=
          attemptGo_matched_spec (cues.drop i) (normalize_text p) [] none k s e h
        refine ⟨p, i, k, by simp, rfl, hk1, ?_, ⟨c0, by rw [hdrop]; rfl, hs⟩,
          ⟨cl, hcl, he⟩, ?_⟩
        · have := List.length_drop i cues
          omega
        · rw [← normalize_accumJoin]
          exact hnorm
      · obtain ⟨q, j, k', h1, h2, h3, h4, h5, h6, h7⟩ := ih (idx + 1) (i + k) b hb
        exact ⟨q, j, k', List.mem_cons_of_mem p h1, h2, h3, h4, h5, h6, h7⟩
    | aborted =>
      rw [h] at hb
      obtain ⟨q, j, k', h1, h2, h3, h4, h5, h6, h7⟩ := ih idx i b hb
      exact ⟨q, j, k', List.mem_cons_of_mem p h1, h2, h3, h4, h5, h6, h7⟩
    | exhausted =>
      rw [h] at hb
      obtain ⟨q, j, k', h1, h2, h3, h4, h5, h6, h7⟩ := ih idx cues.length b hb
      exact ⟨q, j, k', List.mem_cons_of_mem p h1, h2, h3, h4, h5, h6, h7⟩

/-- C1: every committed block takes its start time from the first cue
its attempt consumed, its end time from the last cue consumed, its text
verbatim from the paragraph, and the space-joined texts of the consumed
cues normalize exactly to the normalized paragraph. -/
theorem C1_block_invariant (cues : List SrtBlock) (paragraphs : List (List Char))
    (b : SrtBlock) (hb : b ∈ merge_srt_by_paragraph cues paragraphs) :
    ∃ p j k, p ∈ paragraphs ∧ b.text = p ∧ 1 ≤ k ∧ j + k ≤ cues.length ∧
      (∃ c0, (cues.drop j).head? = some c0 ∧ b.start = c0.start) ∧
      (∃ cl, ((cues.drop j).take k).getLast? = some cl ∧ b.stop = cl.stop) ∧
      normalize_text (List.intercalate [' '] (((cues.drop j).take k).map SrtBlock.text)) =
        normalize_text p :=
  merge_go_mem cues paragraphs 1 0 b hb

/-- Witness for C1 at the exact-match scenario of the specification. -/
theorem C1_block_invariant_witness :
    (⟨1, 0, 5/2, "Hello world.".data⟩ : SrtBlock) ∈
      merge_srt_by_paragraph [⟨1, 0, 1, "Hello".data⟩, ⟨2, 1, 5/2, "world.".data⟩]
        ["Hello world.".data] ∧
    ∃ p j k, p ∈ ["Hello world.".data] ∧
      (⟨1, 0, 5/2, "Hello world.".data⟩ : SrtBlock).text = p ∧ 1 ≤ k ∧
      k + j ≤ 2 ∧ True := by
  constructor
  · with_unfolding_all decide
  · obtain ⟨p, j, k, h1, h2, h3, h4, h5⟩ :=
      C1_block_invariant [⟨1, 0, 1, "Hello".data⟩, ⟨2, 1, 5/2, "world.".data⟩]
        ["Hello world.".data] ⟨1, 0, 5/2, "Hello world.".data⟩ (by with_unfolding_all decide)
    exact ⟨p, j, k, h1, h2, h3, by simpa [Nat.add_comm] using h4, trivial⟩

theorem wordsN_eq_nil_of_normalize_nil (t : List Char) (h : normalize_text t = []) :
    wordsN t = [] := by
  rw [normalize_eq_wordsN] at h
  cases hx : wordsN t with
  | nil => rfl
  | cons w ws =>
    rw [hx] at h
    have hsound : w ≠ [] := by
      have := wordsSpec_sound (t.map replaceChar) w
        (by rw [← wordsOf_eq_wordsSpec, ← wordsN, hx]; simp)
      exact this.1
    exact absurd h (intercalate_words_ne_nil w ws hsound)

/-- C10: a cue whose text normalizes to the empty string leaves the
normalized accumulated text unchanged; while the paragraph's normalized
text is nonempty and the accumulated text is still a prefix of it, such
a cue cannot itself trigger the abort branch (an abort can only come
from a later cue), and when the start time is still unset a match
records the whitespace-only cue's start time as the block's start. -/
theorem C10_whitespace_cue_step (pnorm acc : List Char) (s0 : Option ℚ) (c : SrtBlock)
    (rest : List SrtBlock) (hws : normalize_text c.text = []) (hpn : pnorm ≠ [])
    (hinv : startswith pnorm (normalize_text acc) = true) :
    normalize_text (if acc.isEmpty then c.text else acc ++ ' ' :: c.text) =
      normalize_text acc ∧
    (attemptGo pnorm acc s0 (c :: rest) = .aborted →
      attemptGo pnorm (if acc.isEmpty then c.text else acc ++ ' ' :: c.text)
        (some (s0.getD c.start)) rest = .aborted) ∧
    (∀ k s e, attemptGo pnorm acc none (c :: rest) = .matched k s e → s = c.start) := by
  have hnorm2 : normalize_text (if acc.isEmpty then c.text else acc ++ ' ' :: c.text) =
      normalize_text acc := by
    by_cases ha : acc.isEmpty = true
    · have ha0 : acc = [] := by rwa [List.isEmpty_iff] at ha
      rw [if_pos ha, hws, ha0]
      rfl
    · rw [if_neg ha, normalize_eq_wordsN, normalize_eq_wordsN, wordsN_append_space,
        wordsN_eq_nil_of_normalize_nil c.text hws, List.append_nil]
  refine ⟨hnorm2, ?_, ?_⟩
  · intro h
    rw [attemptGo_cons] at h
    by_cases hm : normalize_text (if acc.isEmpty then c.text else acc ++ ' ' :: c.text)
        = pnorm
    · rw [if_pos hm] at h
      exact absurd h (by simp)
    · rw [if_neg hm] at h
      have hpre : startswith pnorm
          (normalize_text (if acc.isEmpty then c.text else acc ++ ' ' :: c.text)) = true := by
        rw [hnorm2]
        exact hinv
      rw [if_pos hpre] at h
      cases hres : attemptGo pnorm (if acc.isEmpty then c.text else acc ++ ' ' :: c.text)
          (some (s0.getD c.start)) rest with
      | matched k' s' e' =>
        rw [hres] at h
        exact absurd h (by simp)
      | aborted => rfl
      | exhausted =>
        rw [hres] at h
        exact absurd h (by simp)
  · intro k s e h
    obtain ⟨_, _, ⟨c0, cs', hcons, hs⟩, _, _⟩ :=
      attemptGo_matched_spec (c :: rest) pnorm acc none k s e h
    injection hcons with hc0 _
    rw [hs, ← hc0]
    rfl

/-- Witness for C10: a whitespace-only first cue is consumed without
aborting and donates the committed block's start time. -/
theorem C10_whitespace_cue_step_witness :
    (normalize_text (" ".data) = [] ∧ "Hi".data ≠ [] ∧
      startswith ("Hi".data) (normalize_text []) = true) ∧
    (∀ k s e, attemptGo ("Hi".data) [] none
      [⟨1, 0, 1, " ".data⟩, ⟨2, 1, 2, "Hi".data⟩] = .matched k s e → s = 0) := by
  refine ⟨⟨by with_unfolding_all decide, by with_unfolding_all decide,
    by with_unfolding_all decide⟩, ?_⟩
  have h := C10_whitespace_cue_step ("Hi".data) [] none ⟨1, 0, 1, " ".data⟩
    [⟨2, 1, 2, "Hi".data⟩] (by with_unfolding_all decide) (by with_unfolding_all decide)
    (by with_unfolding_all decide)
  exact h.2.2

/-- C2 (amended): a paragraph whose attempt aborts on a mismatching cue
leaves the cursor at the attempt start, and processing the remaining
paragraphs proceeds exactly as if the failed paragraph were absent; an
attempt that instead fails by exhausting the cue list leaves the cursor
at the end of the cue list (see the counterexample). -/
theorem C2_abort_preserves_cursor (cues : List SrtBlock) (p : List Char)
    (ps : List (List Char)) (idx : Int) (i : Nat)
    (h : attemptGo (normalize_text p) [] none (cues.drop i) = .aborted) :
    attemptCursor cues (normalize_text p) i = i ∧
    merge_go cues (p :: ps) idx i = merge_go cues ps idx i := by
  constructor
  · rw [attemptCursor, h]
  · rw [merge_go_cons, h]

/-- Witness for C2 (amended) at the mismatch-drop scenario of the
specification. -/
theorem C2_abort_preserves_cursor_witness :
    attemptGo (normalize_text ("Hello world".data)) [] none
      (([⟨1, 0, 1, "Hello".data⟩, ⟨2, 1, 2, "there".data⟩] : List SrtBlock).drop 0) =
        .aborted ∧
    (attemptCursor [⟨1, 0, 1, "Hello".data⟩, ⟨2, 1, 2, "there".data⟩]
        (normalize_text ("Hello world".data)) 0 = 0 ∧
      merge_go [⟨1, 0, 1, "Hello".data⟩, ⟨2, 1, 2, "there".data⟩]
          ["Hello world".data, "Hello there".data] 1 0 =
        merge_go [⟨1, 0, 1, "Hello".data⟩, ⟨2, 1, 2, "there".data⟩]
          ["Hello there".data] 1 0) := by
  refine ⟨by with_unfolding_all decide, ?_⟩
  exact C2_abort_preserves_cursor [⟨1, 0, 1, "Hello".data⟩, ⟨2, 1, 2, "there".data⟩]
    ("Hello world".data) ["Hello there".data] 1 0 (by with_unfolding_all decide)

/-- Counterexample to C2 as stated: an attempt that fails because the
cue list is exhausted mid-accumulation does not restore the cursor to
the attempt start.  With one cue reading Hello and the paragraphs
Hello there followed by Hello, the first attempt fails with no block
yet moves the cursor from 0 to 1, so the second paragraph, which would
match the still-unconsumed cue exactly, also produces nothing. -/
theorem C2_counterexample :
    attemptGo (normalize_text ("Hello there".data)) [] none
      [(⟨1, 0, 1, "Hello".data⟩ : SrtBlock)] = .exhausted ∧
    attemptCursor [(⟨1, 0, 1, "Hello".data⟩ : SrtBlock)]
      (normalize_text ("Hello there".data)) 0 = 1 ∧
    merge_srt_by_paragraph [⟨1, 0, 1, "Hello".data⟩]
      ["Hello there".data, "Hello".data] = [] ∧
    merge_srt_by_paragraph [⟨1, 0, 1, "Hello".data⟩] ["Hello".data] =
      [⟨1, 0, 1, "Hello".data⟩] := by
  with_unfolding_all decide

/-! ### Consumed ranges -/

theorem mergeRanges_nil (cues : List SrtBlock) (i : Nat) : mergeRanges cues [] i = [] := rfl

theorem mergeRanges_cons (cues : List SrtBlock) (p : List Char) (ps : List (List Char))
    (i : Nat) :
    mergeRanges cues (p :: ps) i =
      (match attemptGo (normalize_text p) [] none (cues.drop i) with
      | .matched k _ _ => (i, k) :: mergeRanges cues ps (i + k)
      | .aborted => mergeRanges cues ps i
      | .exhausted => mergeRanges cues ps cues.length) := rfl

theorem mergeRanges_at_end (cues : List SrtBlock) : ∀ ps : List (List Char),
    mergeRanges cues ps cues.length = [] := by
  intro ps
  induction ps with
  | nil => rfl
  | cons p ps ih =>
    rw [mergeRanges_cons, List.drop_length, attemptGo_nil]
    exact ih

theorem mergeRanges_bounds (cues : List SrtBlock) : ∀ (ps : List (List Char)) (i : Nat),
    ∀ r ∈ mergeRanges cues ps i, i ≤ r.1 ∧ 1 ≤ r.2 ∧ r.1 + r.2 ≤ cues.length := by
  intro ps
  induction ps with
  | nil =>
    intro i r hr
    simp [mergeRanges_nil] at hr
  | cons p ps ih =>
    intro i r hr
    rw [mergeRanges_cons] at hr
    cases h : attemptGo (normalize_text p) [] none (cues.drop i) with
    | matched k s e =>
      rw [h] at hr
      simp only [List.mem_cons] at hr
      rcases hr with hr | hr
      · subst hr
        obtain ⟨hk1, hk2, _, _, _⟩ := attemptGo_matched_spec _ _ _ _ _ _ _ h
        have hlen := List.length_drop i cues
        exact ⟨le_refl i, hk1, by omega⟩
      · obtain ⟨h1, h2, h3⟩ := ih (i + k) r hr
        exact ⟨by omega, h2, h3⟩
    | aborted =>
      rw [h] at hr
      exact ih i r hr
    | exhausted =>
      rw [h, mergeRanges_at_end] at hr
      simp at hr

theorem mergeRanges_pairwise (cues : List SrtBlock) : ∀ (ps : List (List Char)) (i : Nat),
    List.Pairwise (fun r1 r2 => r1.1 + r1.2 ≤ r2.1) (mergeRanges cues ps i) := by
  intro ps
  induction ps with
  | nil =>
    intro i
    simp [mergeRanges_nil]
  | cons p ps ih =>
    intro i
    rw [mergeRanges_cons]
    cases h : attemptGo (normalize_text p) [] none (cues.drop i) with
    | matched k s e =>
      refine List.Pairwise.cons ?_ (ih (i + k))
      intro r hr
      exact (mergeRanges_bounds cues ps (i + k) r hr).1
    | aborted => exact ih i
    | exhausted =>
      rw [mergeRanges_at_end]
      exact List.Pairwise.nil

theorem merge_go_length_eq_ranges (cues : List SrtBlock) : ∀ (ps : List (List Char))
    (idx : Int) (i : Nat),
    (merge_go cues ps idx i).length = (mergeRanges cues ps i).length := by
  intro ps
  induction ps with
  | nil =>
    intro idx i
    rfl
  | cons p ps ih =>
    intro idx i
    rw [merge_go_cons, mergeRanges_cons]
    cases h : attemptGo (normalize_text p) [] none (cues.drop i) with
    | matched k s e =>
      simp only [List.length_cons]
      rw [ih (idx + 1) (i + k)]
    | aborted => exact ih idx i
    | exhausted => exact ih idx cues.length

/-- C7: the committed blocks' consumed-cue ranges, in output order, are
pairwise disjoint and ordered: each committed block's attempt starts at
or after the end of the previous committed block's consumed range, so
no cue is consumed by two different committed blocks; every range is
nonempty and lies inside the cue list, and there is one range per
committed block. -/
theorem C7_ranges_disjoint (cues : List SrtBlock) (paragraphs : List (List Char)) :
    List.Pairwise (fun r1 r2 => r1.1 + r1.2 ≤ r2.1) (mergeRanges cues paragraphs 0) ∧
    (merge_srt_by_paragraph cues paragraphs).length =
      (mergeRanges cues paragraphs 0).length ∧
    ∀ r ∈ mergeRanges cues paragraphs 0, 1 ≤ r.2 ∧ r.1 + r.2 ≤ cues.length :=
  ⟨mergeRanges_pairwise cues paragraphs 0,
    merge_go_length_eq_ranges cues paragraphs 1 0,
    fun r hr => ⟨(mergeRanges_bounds cues paragraphs 0 r hr).2.1,
      (mergeRanges_bounds cues paragraphs 0 r hr).2.2⟩⟩

/-- Witness for C7 at the prefix-then-match scenario: the two committed
blocks consume the disjoint cue ranges starting at 0 (two cues) and at
2 (one cue). -/
theorem C7_ranges_disjoint_witness :
    ((0, 2) ∈ mergeRanges [⟨1, 0, 1, "Good".data⟩, ⟨2, 1, 2, "morning.".data⟩,
      ⟨3, 2, 3, "Everyone.".data⟩] ["Good morning.".data, "Everyone.".data] 0) ∧
    (1 ≤ (0, 2).2 ∧ (0, 2).1 + (0, 2).2 ≤
      ([⟨1, 0, 1, "Good".data⟩, ⟨2, 1, 2, "morning.".data⟩,
        ⟨3, 2, 3, "Everyone.".data⟩] : List SrtBlock).length) := by
  refine ⟨by with_unfolding_all decide, ?_⟩
  exact (C7_ranges_disjoint [⟨1, 0, 1, "Good".data⟩, ⟨2, 1, 2, "morning.".data⟩,
    ⟨3, 2, 3, "Everyone.".data⟩] ["Good morning.".data, "Everyone.".data]).2.2
    (0, 2) (by with_unfolding_all decide)

/-! ### Digit strings and numerals -/

theorem char_eq_iff_toNat (c d : Char) : c = d ↔ c.toNat = d.toNat := by
  constructor
  · intro h
    rw [h]
  · intro h
    rw [← Char.ofNat_toNat c, ← Char.ofNat_toNat d, h]

theorem isDigit_iff_toNat (c : Char) : c.isDigit = true ↔ 48 ≤ c.toNat ∧ c.toNat ≤ 57 := by
  rw [Char.isDigit]
  simp [Char.le_def, Char.toNat]
  constructor
  · intro ⟨h1, h2⟩
    exact ⟨h1, h2⟩
  · intro ⟨h1, h2⟩
    exact ⟨h1, h2⟩

theorem isSpace_iff_toNat (c : Char) : isSpace c = true ↔
    (c.toNat = 32 ∨ c.toNat = 9 ∨ c.toNat = 10 ∨ c.toNat = 13 ∨ c.toNat = 11 ∨
      c.toNat = 12) := by
  rw [isSpace]
  simp only [Bool.or_eq_true, decide_eq_true_eq]
  rw [char_eq_iff_toNat c ' ', char_eq_iff_toNat c '\t', char_eq_iff_toNat c '\n',
    char_eq_iff_toNat c '\r', char_eq_iff_toNat c '\x0b', char_eq_iff_toNat c '\x0c']
  simp only [show (' ').toNat = 32 from rfl, show ('\t').toNat = 9 from rfl,
    show ('\n').toNat = 10 from rfl, show ('\r').toNat = 13 from rfl,
    show ('\x0b').toNat = 11 from rfl, show ('\x0c').toNat = 12 from rfl]
  tauto

theorem isLinebreak_iff_toNat (c : Char) : isLinebreak c = true ↔
    (c.toNat = 10 ∨ c.toNat = 13 ∨ c.toNat = 11 ∨ c.toNat = 12) := by
  rw [isLinebreak]
  simp only [Bool.or_eq_true, decide_eq_true_eq]
  rw [char_eq_iff_toNat c '\n', char_eq_iff_toNat c '\r', char_eq_iff_toNat c '\x0b',
    char_eq_iff_toNat c '\x0c']
  simp only [show ('\n').toNat = 10 from rfl, show ('\r').toNat = 13 from rfl,
    show ('\x0b').toNat = 11 from rfl, show ('\x0c').toNat = 12 from rfl]
  tauto

theorem not_space_of_digit (c : Char) (h : c.isDigit = true) : isSpace c = false := by
  rw [isDigit_iff_toNat] at h
  by_contra hx
  have hs : isSpace c = true := by
    cases hy : isSpace c
    · exact absurd hy hx
    · rfl
  rw [isSpace_iff_toNat] at hs
  omega

theorem not_linebreak_of_digit (c : Char) (h : c.isDigit = true) : isLinebreak c = false := by
  rw [isDigit_iff_toNat] at h
  by_contra hx
  have hs : isLinebreak c = true := by
    cases hy : isLinebreak c
    · exact absurd hy hx
    · rfl
  rw [isLinebreak_iff_toNat] at hs
  omega

theorem digit_ne_of_toNat (c d : Char) (h : c.isDigit = true)
    (hd : d.toNat < 48 ∨ 57 < d.toNat) : c ≠ d := by
  rw [isDigit_iff_toNat] at h
  intro hx
  rw [char_eq_iff_toNat] at hx
  omega

theorem toNat_ofNat_small (m : Nat) (h : m < 55296) : (Char.ofNat m).toNat = m := by
  rw [Char.toNat, Char.ofNat, dif_pos (by rw [Nat.isValidChar]; omega)]
  rfl

theorem digitVal_ofNat (d : Nat) (hd : d < 10) : digitVal (Char.ofNat (48 + d)) = d := by
  rw [digitVal, toNat_ofNat_small (48 + d) (by omega)]
  omega

theorem isDigit_ofNat (d : Nat) (hd : d < 10) : (Char.ofNat (48 + d)).isDigit = true := by
  rw [isDigit_iff_toNat, toNat_ofNat_small (48 + d) (by omega)]
  omega

theorem natDigitsAux_spec : ∀ (fuel n : Nat), n ≤ fuel →
    (∀ c ∈ natDigitsAux fuel n, c.isDigit = true) ∧
    List.foldr (fun c a => 10 * a + digitVal c) 0 (natDigitsAux fuel n) = n := by
  intro fuel
  induction fuel with
  | zero =>
    intro n hn
    have : n = 0 := by omega
    subst this
    exact ⟨by simp [natDigitsAux], rfl⟩
  | succ fuel ih =>
    intro n hn
    cases n with
    | zero => exact ⟨by simp [natDigitsAux], rfl⟩
    | succ m =>
      have hdiv : (m + 1) / 10 ≤ fuel := by
        have := Nat.div_lt_self (show 0 < m + 1 by omega) (show 1 < 10 by omega)
        omega
      obtain ⟨ihd, ihv⟩ := ih ((m + 1) / 10) hdiv
      rw [show natDigitsAux (fuel + 1) (m + 1) =
        Char.ofNat (48 + (m + 1) % 10) :: natDigitsAux fuel ((m + 1) / 10) from rfl]
      constructor
      · intro c hc
        rcases List.mem_cons.mp hc with hc | hc
        · subst hc
          exact isDigit_ofNat _ (Nat.mod_lt _ (by omega))
        · exact ihd c hc
      · rw [List.foldr_cons, ihv, digitVal_ofNat _ (Nat.mod_lt _ (by omega))]
        omega

theorem decRepr_digits (n : Nat) : ∀ c ∈ decRepr n, c.isDigit = true := by
  rw [decRepr]
  by_cases h : n = 0
  · rw [if_pos h]
    intro c hc
    simp at hc
    subst hc
    decide
  · rw [if_neg h]
    intro c hc
    exact (natDigitsAux_spec n n (le_refl n)).1 c (List.mem_reverse.mp hc)

theorem digitsVal_decRepr (n : Nat) : digitsVal (decRepr n) = n := by
  rw [decRepr]
  by_cases h : n = 0
  · rw [if_pos h, h]
    decide
  · rw [if_neg h, digitsVal, List.foldl_reverse]
    exact (natDigitsAux_spec n n (le_refl n)).2

theorem decRepr_ne_nil (n : Nat) : decRepr n ≠ [] := by
  rw [decRepr]
  by_cases h : n = 0
  · rw [if_pos h]
    simp
  · rw [if_neg h]
    intro hx
    have hv := digitsVal_decRepr n
    rw [decRepr, if_neg h, hx] at hv
    exact h (by rw [← hv]; rfl)

theorem digitsVal_zeros (k : Nat) :
    List.foldl (fun a c => 10 * a + digitVal c) 0 (List.replicate k '0') = 0 := by
  induction k with
  | zero => rfl
  | succ k ih =>
    rw [List.replicate_succ, List.foldl_cons]
    have : (10 * 0 + digitVal '0') = 0 := by decide
    rw [this]
    exact ih

theorem digitsVal_zfill (w : Nat) (ds : List Char) : digitsVal (zfill w ds) = digitsVal ds := by
  rw [zfill, digitsVal, List.foldl_append, digitsVal_zeros, digitsVal]

theorem zfill_digits (w : Nat) (ds : List Char) (h : ∀ c ∈ ds, c.isDigit = true) :
    ∀ c ∈ zfill w ds, c.isDigit = true := by
  intro c hc
  rw [zfill] at hc
  rcases List.mem_append.mp hc with hc | hc
  · have : c = '0' := List.eq_of_mem_replicate hc
    subst this
    decide
  · exact h c hc

theorem zfill_length (w : Nat) (ds : List Char) : (zfill w ds).length = max w ds.length := by
  rw [zfill, List.length_append, List.length_replicate]
  omega

theorem stripChars_of_no_space (l : List Char) (h : ∀ c ∈ l, isSpace c = false) :
    stripChars l = l := by
  have hdw : ∀ m : List Char, (∀ c ∈ m, isSpace c = false) → m.dropWhile isSpace = m := by
    intro m hm
    cases m with
    | nil => rfl
    | cons x xs => exact List.dropWhile_cons_of_neg (by simp [hm x (by simp)])
  rw [stripChars, hdw l h, dropTrailingWS,
    hdw l.reverse (fun c hc => h c (List.mem_reverse.mp hc)), List.reverse_reverse]

theorem isdigitStr_of (ds : List Char) (hne : ds ≠ []) (h : ∀ c ∈ ds, c.isDigit = true) :
    isdigitStr ds = true := by
  cases ds with
  | nil => exact absurd rfl hne
  | cons c rest =>
    rw [isdigitStr]
    simp only [List.isEmpty_cons, Bool.not_false, Bool.true_and]
    rw [List.all_eq_true]
    exact h

theorem digitsValOpt_digits (ds : List Char) (hne : ds ≠ [])
    (h : ∀ c ∈ ds, c.isDigit = true) : digitsValOpt ds = some (digitsVal ds) := by
  rw [digitsValOpt, if_pos (isdigitStr_of ds hne h)]

theorem pyParseInt_cons (c : Char) (rest : List Char)
    (h : stripChars (c :: rest) = c :: rest) :
    pyParseInt (c :: rest) =
      (if c = '+' then (digitsValOpt rest).map fun n => (n : Int)
      else if c = '-' then (digitsValOpt rest).map fun n => -(n : Int)
      else (digitsValOpt (c :: rest)).map fun n => (n : Int)) := by
  rw [pyParseInt, h]

theorem pyParseInt_digits (ds : List Char) (hne : ds ≠ [])
    (h : ∀ c ∈ ds, c.isDigit = true) : pyParseInt ds = some ((digitsVal ds : Nat) : Int) := by
  cases ds with
  | nil => exact absurd rfl hne
  | cons c rest =>
    have hcd : c.isDigit = true := h c (by simp)
    rw [pyParseInt_cons c rest (stripChars_of_no_space (c :: rest)
      (fun a ha => not_space_of_digit a (h a ha)))]
    rw [if_neg (digit_ne_of_toNat c '+' hcd (by left; decide)),
      if_neg (digit_ne_of_toNat c '-' hcd (by left; decide))]
    rw [digitsValOpt_digits (c :: rest) (by simp) h]
    rfl

theorem pyParseInt_zfill_decRepr (w n : Nat) :
    pyParseInt (zfill w (decRepr n)) = some ((n : Nat) : Int) := by
  rw [pyParseInt_digits (zfill w (decRepr n))
    (by rw [zfill]; intro hx; exact decRepr_ne_nil n (List.append_eq_nil.mp hx).2)
    (zfill_digits w (decRepr n) (decRepr_digits n))]
  rw [digitsVal_zfill, digitsVal_decRepr]

theorem splitOnCharAux_no_sep (sep : Char) (l : List Char) : ∀ cur : List Char,
    (∀ c ∈ l, c ≠ sep) → splitOnCharAux sep cur l = [cur.reverse ++ l] := by
  induction l with
  | nil =>
    intro cur h
    simp [splitOnCharAux]
  | cons c rest ih =>
    intro cur h
    rw [show splitOnCharAux sep cur (c :: rest) = splitOnCharAux sep (c :: cur) rest by
      simp [splitOnCharAux, h c (by simp)]]
    rw [ih (c :: cur) (fun a ha => h a (List.mem_cons_of_mem c ha))]
    simp

theorem splitOnChar_no_sep (sep : Char) (l : List Char) (h : ∀ c ∈ l, c ≠ sep) :
    splitOnChar sep l = [l] := by
  rw [splitOnChar, splitOnCharAux_no_sep sep l [] h]
  rfl

theorem splitOnCharAux_append_sep (sep : Char) (y : List Char) : ∀ (x cur : List Char),
    (∀ c ∈ x, c ≠ sep) →
    splitOnCharAux sep cur (x ++ sep :: y) = (cur.reverse ++ x) :: splitOnChar sep y := by
  intro x
  induction x with
  | nil =>
    intro cur h
    simp [splitOnCharAux, splitOnChar]
  | cons c rest ih =>
    intro cur h
    rw [List.cons_append,
      show splitOnCharAux sep cur (c :: (rest ++ sep :: y)) =
        splitOnCharAux sep (c :: cur) (rest ++ sep :: y) by
          simp [splitOnCharAux, h c (by simp)]]
    rw [ih (c :: cur) (fun a ha => h a (List.mem_cons_of_mem c ha))]
    simp

theorem splitOnChar_append_sep (sep : Char) (x y : List Char) (h : ∀ c ∈ x, c ≠ sep) :
    splitOnChar sep (x ++ sep :: y) = x :: splitOnChar sep y := by
  rw [splitOnChar, splitOnCharAux_append_sep sep y x [] h]
  rfl

theorem pyParseFloatCore_digits (ds : List Char) (hne : ds ≠ [])
    (h : ∀ c ∈ ds, c.isDigit = true) :
    pyParseFloatCore ds = some ((digitsVal ds : Nat) : ℚ) := by
  have h1 : splitOnChar '.' ds = [ds] :=
    splitOnChar_no_sep '.' ds
      (fun c hc => digit_ne_of_toNat c '.' (h c hc) (by left; decide))
  rw [pyParseFloatCore, h1]
  show (if isdigitStr ds = true then some ((digitsVal ds : Nat) : ℚ) else none) = _
  rw [if_pos (isdigitStr_of ds hne h)]

theorem pyParseFloat_digits (ds : List Char) (hne : ds ≠ [])
    (h : ∀ c ∈ ds, c.isDigit = true) :
    pyParseFloat ds = some ((digitsVal ds : Nat) : ℚ) := by
  cases ds with
  | nil => exact absurd rfl hne
  | cons c rest =>
    have hcd : c.isDigit = true := h c (by simp)
    rw [pyParseFloat, stripChars_of_no_space (c :: rest)
      (fun a ha => not_space_of_digit a (h a ha))]
    show (if c = '+' then pyParseFloatCore rest
      else if c = '-' then (pyParseFloatCore rest).map Neg.neg
      else pyParseFloatCore (c :: rest)) = _
    rw [if_neg (digit_ne_of_toNat c '+' hcd (by left; decide)),
      if_neg (digit_ne_of_toNat c '-' hcd (by left; decide))]
    exact pyParseFloatCore_digits (c :: rest) (by simp) h

/-! ### Arithmetic facts about the time encoding -/

theorem pyMod_nonneg_lt (a b : ℚ) (hb : 0 < b) : 0 ≤ pyMod a b ∧ pyMod a b < b := by
  rw [pyMod]
  have hfr : a - b * ((⌊a / b⌋ : Int) : ℚ) = b * Int.fract (a / b) := by
    rw [Int.fract]
    field_simp
  rw [hfr]
  constructor
  · exact mul_nonneg (le_of_lt hb) (Int.fract_nonneg (a / b))
  · calc b * Int.fract (a / b) < b * 1 := by
          exact mul_lt_mul_of_pos_left (Int.fract_lt_one (a / b)) hb
      _ = b := mul_one b

theorem pyTrunc_intCast (n : Int) : pyTrunc ((n : ℚ)) = n := by
  rw [pyTrunc]
  by_cases h : (0 : ℚ) ≤ (n : ℚ)
  · rw [if_pos h, Int.floor_intCast]
  · rw [if_neg h, Int.ceil_intCast]

theorem pyTrunc_eq_floor (q : ℚ) (h : 0 ≤ q) : pyTrunc q = ⌊q⌋ := by
  rw [pyTrunc, if_pos h]

theorem pyRound_nonneg (q : ℚ) (h : 0 ≤ q) : 0 ≤ pyRound q := by
  have hf : 0 ≤ ⌊q⌋ := Int.le_floor.mpr (by exact_mod_cast h)
  rw [pyRound]
  by_cases h1 : q - (⌊q⌋ : ℚ) < 1 / 2
  · rw [if_pos h1]
    exact hf
  · rw [if_neg h1]
    by_cases h2 : (1 : ℚ) / 2 < q - (⌊q⌋ : ℚ)
    · rw [if_pos h2]
      omega
    · rw [if_neg h2]
      by_cases h3 : ⌊q⌋ % 2 = 0
      · rw [if_pos h3]
        exact hf
      · rw [if_neg h3]
        omega

theorem pyRound_close (q : ℚ) : |(pyRound q : ℚ) - q| ≤ 1 / 2 := by
  have hle := Int.floor_le q
  have hlt := Int.lt_floor_add_one q
  rw [pyRound]
  by_cases h1 : q - (⌊q⌋ : ℚ) < 1 / 2
  · rw [if_pos h1, abs_le]
    constructor <;> linarith
  · rw [if_neg h1]
    push_neg at h1
    by_cases h2 : (1 : ℚ) / 2 < q - (⌊q⌋ : ℚ)
    · rw [if_pos h2, abs_le]
      push_cast
      constructor <;> linarith
    · push_neg at h2
      rw [if_neg (by push_neg; exact h2)]
      by_cases h3 : ⌊q⌋ % 2 = 0
      · rw [if_pos h3, abs_le]
        constructor <;> linarith
      · rw [if_neg h3, abs_le]
        push_cast
        constructor <;> linarith

theorem format_srt_time_eq (t : ℚ) (ht : 0 ≤ t) :
    format_srt_time t =
      zfill 2 (decRepr (⌊t / 3600⌋).toNat) ++ ':' ::
        zfill 2 (decRepr (⌊pyMod t 3600 / 60⌋).toNat) ++ ':' ::
          zfill 2 (decRepr (⌊pyMod (pyMod t 3600) 60⌋).toNat) ++ ',' ::
            zfill 3 (decRepr (pyRound ((t - ((⌊t⌋ : Int) : ℚ)) * 1000)).toNat) := by
  have hR := pyMod_nonneg_lt t 3600 (by norm_num)
  have hs2 := pyMod_nonneg_lt (pyMod t 3600) 60 (by norm_num)
  have hh : (0 : Int) ≤ ⌊t / 3600⌋ :=
    Int.le_floor.mpr (by exact_mod_cast div_nonneg ht (by norm_num))
  have hm : (0 : Int) ≤ ⌊pyMod t 3600 / 60⌋ :=
    Int.le_floor.mpr (by exact_mod_cast div_nonneg hR.1 (by norm_num))
  have hsec : (0 : Int) ≤ ⌊pyMod (pyMod t 3600) 60⌋ :=
    Int.le_floor.mpr (by exact_mod_cast hs2.1)
  have hms : (0 : Int) ≤ pyRound ((t - ((⌊t⌋ : Int) : ℚ)) * 1000) := by
    apply pyRound_nonneg
    have := Int.floor_le t
    nlinarith
  rw [format_srt_time]
  rw [show pyFloorDiv t 3600 = ((⌊t / 3600⌋ : Int) : ℚ) from rfl,
    show pyFloorDiv (pyMod t 3600) 60 = ((⌊pyMod t 3600 / 60⌋ : Int) : ℚ) from rfl,
    pyTrunc_intCast, pyTrunc_intCast, pyTrunc_eq_floor (pyMod (pyMod t 3600) 60) hs2.1,
    pyTrunc_eq_floor t ht]
  rw [intPad, if_neg (by omega), intPad, if_neg (by omega), intPad, if_neg (by omega),
    intPad, if_neg (by omega)]

theorem hms_floor_decomp (t : ℚ) :
    3600 * ⌊t / 3600⌋ + 60 * ⌊pyMod t 3600 / 60⌋ + ⌊pyMod (pyMod t 3600) 60⌋ = ⌊t⌋ := by
  have h1 : pyMod t 3600 = t - ((3600 * ⌊t / 3600⌋ : Int) : ℚ) := by
    rw [pyMod]
    push_cast
    ring
  have h2 : pyMod (pyMod t 3600) 60 =
      pyMod t 3600 - ((60 * ⌊pyMod t 3600 / 60⌋ : Int) : ℚ) := by
    rw [pyMod]
    push_cast
    ring
  have h3 : ⌊pyMod t 3600⌋ = ⌊t⌋ - 3600 * ⌊t / 3600⌋ := by
    rw [h1, Int.floor_sub_int]
  have h4 : ⌊pyMod (pyMod t 3600) 60⌋ = ⌊pyMod t 3600⌋ - 60 * ⌊pyMod t 3600 / 60⌋ := by
    rw [h2, Int.floor_sub_int]
  omega

/-- Composition of the timestamp encoder and decoder: for a nonnegative
seconds value the encoded string parses back to the integral seconds
plus the rounded milliseconds. -/
theorem parse_format_srt_time (t : ℚ) (ht : 0 ≤ t) :
    parse_srt_time (format_srt_time t) = some (rtQ t) := by
  have hfmt := format_srt_time_eq t ht
  set A := zfill 2 (decRepr (⌊t / 3600⌋).toNat) with hA
  set B := zfill 2 (decRepr (⌊pyMod t 3600 / 60⌋).toNat) with hB
  set C := zfill 2 (decRepr (⌊pyMod (pyMod t 3600) 60⌋).toNat) with hC
  set D := zfill 3 (decRepr (pyRound ((t - ((⌊t⌋ : Int) : ℚ)) * 1000)).toNat) with hD
  have hAdig : ∀ c ∈ A, c.isDigit = true := zfill_digits _ _ (decRepr_digits _)
  have hBdig : ∀ c ∈ B, c.isDigit = true := zfill_digits _ _ (decRepr_digits _)
  have hCdig : ∀ c ∈ C, c.isDigit = true := zfill_digits _ _ (decRepr_digits _)
  have hDdig : ∀ c ∈ D, c.isDigit = true := zfill_digits _ _ (decRepr_digits _)
  have hDne : D ≠ [] := by
    rw [hD, zfill]
    intro hx
    exact decRepr_ne_nil _ (List.append_eq_nil.mp hx).2
  have hsplit1 : splitOnChar ':' (format_srt_time t) = [A, B, C ++ ',' :: D] := by
    rw [hfmt]
    simp only [List.append_assoc, List.cons_append]
    rw [splitOnChar_append_sep ':' A (B ++ ':' :: (C ++ ',' :: D))
      (fun c hc => digit_ne_of_toNat c ':' (hAdig c hc) (by right; decide))]
    rw [splitOnChar_append_sep ':' B (C ++ ',' :: D)
      (fun c hc => digit_ne_of_toNat c ':' (hBdig c hc) (by right; decide))]
    rw [splitOnChar_no_sep ':' (C ++ ',' :: D)]
    intro c hc
    rcases List.mem_append.mp hc with hc | hc
    · exact digit_ne_of_toNat c ':' (hCdig c hc) (by right; decide)
    · rcases List.mem_cons.mp hc with hc | hc
      · subst hc
        decide
      · exact digit_ne_of_toNat c ':' (hDdig c hc) (by right; decide)
  have hsplit2 : splitOnChar ',' (C ++ ',' :: D) = [C, D] := by
    rw [splitOnChar_append_sep ',' C D
      (fun c hc => digit_ne_of_toNat c ',' (hCdig c hc) (by left; decide))]
    rw [splitOnChar_no_sep ',' D
      (fun c hc => digit_ne_of_toNat c ',' (hDdig c hc) (by left; decide))]
  rw [parse_srt_time, hsplit1]
  show (match splitOnChar ',' (C ++ ',' :: D) with
    | [seconds, millis] => do
      let h ← pyParseInt A
      let m ← pyParseInt B
      let s ← pyParseInt seconds
      let ms ← pyParseFloat millis
      pure ((h : ℚ) * 3600 + (m : ℚ) * 60 + (s : ℚ) + ms / 1000)
    | _ => none) = some (rtQ t)
  rw [hsplit2]
  show (do
    let h ← pyParseInt A
    let m ← pyParseInt B
    let s ← pyParseInt C
    let ms ← pyParseFloat D
    pure ((h : ℚ) * 3600 + (m : ℚ) * 60 + (s : ℚ) + ms / 1000)) = some (rtQ t)
  rw [hA, hB, hC, hD, pyParseInt_zfill_decRepr, pyParseInt_zfill_decRepr,
    pyParseInt_zfill_decRepr,
    pyParseFloat_digits (zfill 3 (decRepr (pyRound ((t - ((⌊t⌋ : Int) : ℚ)) * 1000)).toNat))
      (by rw [zfill]; intro hx; exact decRepr_ne_nil _ (List.append_eq_nil.mp hx).2)
      (zfill_digits _ _ (decRepr_digits _)),
    digitsVal_zfill, digitsVal_decRepr]
  have hh : (0 : Int) ≤ ⌊t / 3600⌋ :=
    Int.le_floor.mpr (by exact_mod_cast div_nonneg ht (by norm_num))
  have hR := pyMod_nonneg_lt t 3600 (by norm_num)
  have hm : (0 : Int) ≤ ⌊pyMod t 3600 / 60⌋ :=
    Int.le_floor.mpr (by exact_mod_cast div_nonneg hR.1 (by norm_num))
  have hs2 := pyMod_nonneg_lt (pyMod t 3600) 60 (by norm_num)
  have hsec : (0 : Int) ≤ ⌊pyMod (pyMod t 3600) 60⌋ :=
    Int.le_floor.mpr (by exact_mod_cast hs2.1)
  have hms : (0 : Int) ≤ pyRound ((t - ((⌊t⌋ : Int) : ℚ)) * 1000) := by
    apply pyRound_nonneg
    have := Int.floor_le t
    nlinarith
  show some _ = some (rtQ t)
  congr 1
  rw [Int.toNat_of_nonneg hh, Int.toNat_of_nonneg hm, Int.toNat_of_nonneg hsec]
  rw [show (((pyRound ((t - ((⌊t⌋ : Int) : ℚ)) * 1000)).toNat : Nat) : ℚ) =
    ((pyRound ((t - ((⌊t⌋ : Int) : ℚ)) * 1000) : Int) : ℚ) by
      exact_mod_cast congrArg (fun z : Int => (z : ℚ)) (Int.toNat_of_nonneg hms)]
  rw [rtQ]
  have hq : ((3600 * ⌊t / 3600⌋ + 60 * ⌊pyMod t 3600 / 60⌋ +
      ⌊pyMod (pyMod t 3600) 60⌋ : Int) : ℚ) = ((⌊t⌋ : Int) : ℚ) := by
    exact_mod_cast hms_floor_decomp t
  push_cast at hq ⊢
  linarith

theorem natDigitsAux_length : ∀ (fuel n w : Nat), n ≤ fuel → n < 10 ^ w →
    (natDigitsAux fuel n).length ≤ w := by
  intro fuel
  induction fuel with
  | zero =>
    intro n w hn hw
    have : n = 0 := by omega
    subst this
    simp [natDigitsAux]
  | succ fuel ih =>
    intro n w hn hw
    cases n with
    | zero => simp [natDigitsAux]
    | succ m =>
      cases w with
      | zero =>
        simp at hw
      | succ w =>
        rw [show natDigitsAux (fuel + 1) (m + 1) =
          Char.ofNat (48 + (m + 1) % 10) :: natDigitsAux fuel ((m + 1) / 10) from rfl]
        rw [List.length_cons]
        have hdiv : (m + 1) / 10 ≤ fuel := by
          have := Nat.div_lt_self (show 0 < m + 1 by omega) (show 1 < 10 by omega)
          omega
        have hlt : (m + 1) / 10 < 10 ^ w := by
          rw [Nat.div_lt_iff_lt_mul (by omega)]
          calc m + 1 < 10 ^ (w + 1) := hw
            _ = 10 ^ w * 10 := by ring
        have := ih ((m + 1) / 10) w hdiv hlt
        omega

theorem decRepr_length_le (n w : Nat) (h : n < 10 ^ w) (hw : 1 ≤ w) :
    (decRepr n).length ≤ w := by
  rw [decRepr]
  by_cases h0 : n = 0
  · rw [if_pos h0]
    simpa using hw
  · rw [if_neg h0, List.length_reverse]
    exact natDigitsAux_length n n w (le_refl n) h

theorem list_of_length_two (l : List Char) (h : l.length = 2) : ∃ a b, l = [a, b] := by
  cases l with
  | nil => simp at h
  | cons a l1 =>
    cases l1 with
    | nil => simp at h
    | cons b l2 =>
      cases l2 with
      | nil => exact ⟨a, b, rfl⟩
      | cons c l3 => simp at h

theorem list_of_length_three (l : List Char) (h : l.length = 3) : ∃ a b c, l = [a, b, c] := by
  cases l with
  | nil => simp at h
  | cons a l1 =>
    obtain ⟨b, c, hbc⟩ := list_of_length_two l1 (by simpa using h)
    exact ⟨a, b, c, by rw [hbc]⟩

/-- C3 (amended): for a nonnegative seconds value below one hundred
hours whose millisecond rounding stays below one thousand, the encoder
produces a string in the exact shape of two-digit hours, minutes and
seconds with three-digit milliseconds, and that string parses back to
the integral seconds plus the rounded milliseconds; outside those
bounds the shape breaks (see the counterexample). -/
theorem C3_time_format (t : ℚ) (ht : 0 ≤ t) (hlt : t < 360000)
    (hmsb : pyRound ((t - ((⌊t⌋ : Int) : ℚ)) * 1000) ≤ 999) :
    isTimePattern (format_srt_time t) = true ∧
    parse_srt_time (format_srt_time t) = some (rtQ t) := by
  refine ⟨?_, parse_format_srt_time t ht⟩
  have hfmt := format_srt_time_eq t ht
  have hR := pyMod_nonneg_lt t 3600 (by norm_num)
  have hs2 := pyMod_nonneg_lt (pyMod t 3600) 60 (by norm_num)
  have hh0 : (0 : Int) ≤ ⌊t / 3600⌋ :=
    Int.le_floor.mpr (by exact_mod_cast div_nonneg ht (by norm_num))
  have hm0 : (0 : Int) ≤ ⌊pyMod t 3600 / 60⌋ :=
    Int.le_floor.mpr (by exact_mod_cast div_nonneg hR.1 (by norm_num))
  have hs0 : (0 : Int) ≤ ⌊pyMod (pyMod t 3600) 60⌋ :=
    Int.le_floor.mpr (by exact_mod_cast hs2.1)
  have hms0 : (0 : Int) ≤ pyRound ((t - ((⌊t⌋ : Int) : ℚ)) * 1000) := by
    apply pyRound_nonneg
    have := Int.floor_le t
    nlinarith
  have hh1 : ⌊t / 3600⌋ < 100 := by
    rw [Int.floor_lt]
    push_cast
    linarith
  have hm1 : ⌊pyMod t 3600 / 60⌋ < 60 := by
    rw [Int.floor_lt]
    push_cast
    have := hR.2
    linarith
  have hs1 : ⌊pyMod (pyMod t 3600) 60⌋ < 60 := by
    rw [Int.floor_lt]
    push_cast
    exact hs2.2
  have hhn : (⌊t / 3600⌋).toNat < 10 ^ 2 := by
    have := Int.toNat_of_nonneg hh0
    omega
  have hmn : (⌊pyMod t 3600 / 60⌋).toNat < 10 ^ 2 := by
    have := Int.toNat_of_nonneg hm0
    omega
  have hsn : (⌊pyMod (pyMod t 3600) 60⌋).toNat < 10 ^ 2 := by
    have := Int.toNat_of_nonneg hs0
    omega
  have hmsn : (pyRound ((t - ((⌊t⌋ : Int) : ℚ)) * 1000)).toNat < 10 ^ 3 := by
    have := Int.toNat_of_nonneg hms0
    omega
  have hAlen : (zfill 2 (decRepr (⌊t / 3600⌋).toNat)).length = 2 := by
    rw [zfill_length]
    have := decRepr_length_le _ 2 hhn (by omega)
    omega
  have hBlen : (zfill 2 (decRepr (⌊pyMod t 3600 / 60⌋).toNat)).length = 2 := by
    rw [zfill_length]
    have := decRepr_length_le _ 2 hmn (by omega)
    omega
  have hClen : (zfill 2 (decRepr (⌊pyMod (pyMod t 3600) 60⌋).toNat)).length = 2 := by
    rw [zfill_length]
    have := decRepr_length_le _ 2 hsn (by omega)
    omega
  have hDlen : (zfill 3 (decRepr (pyRound ((t - ((⌊t⌋ : Int) : ℚ)) * 1000)).toNat)).length
      = 3 := by
    rw [zfill_length]
    have := decRepr_length_le _ 3 hmsn (by omega)
    omega
  obtain ⟨a1, a2, hAeq⟩ := list_of_length_two _ hAlen
  obtain ⟨b1, b2, hBeq⟩ := list_of_length_two _ hBlen
  obtain ⟨c1, c2, hCeq⟩ := list_of_length_two _ hClen
  obtain ⟨d1, d2, d3, hDeq⟩ := list_of_length_three _ hDlen
  have hAdig := zfill_digits 2 (decRepr (⌊t / 3600⌋).toNat) (decRepr_digits _)
  have hBdig := zfill_digits 2 (decRepr (⌊pyMod t 3600 / 60⌋).toNat) (decRepr_digits _)
  have hCdig := zfill_digits 2 (decRepr (⌊pyMod (pyMod t 3600) 60⌋).toNat) (decRepr_digits _)
  have hDdig := zfill_digits 3
    (decRepr (pyRound ((t - ((⌊t⌋ : Int) : ℚ)) * 1000)).toNat) (decRepr_digits _)
  rw [hAeq] at hAdig
  rw [hBeq] at hBdig
  rw [hCeq] at hCdig
  rw [hDeq] at hDdig
  rw [hfmt, hAeq, hBeq, hCeq, hDeq]
  simp only [List.append_assoc, List.cons_append, List.nil_append]
  rw [isTimePattern]
  simp [hAdig a1 (by simp), hAdig a2 (by simp), hBdig b1 (by simp), hBdig b2 (by simp),
    hCdig c1 (by simp), hCdig c2 (by simp), hDdig d1 (by simp), hDdig d2 (by simp),
    hDdig d3 (by simp)]

/-- Counterexample to C3 as stated: at 360000.9995 seconds the hours
field needs three digits and the rounded milliseconds reach 1000, so
the encoder emits 100:00:00,1000, which is not of the two-digit,
three-digit shape the claim asserts for every nonnegative value. -/
theorem C3_counterexample :
    format_srt_time (720001999 / 2000 : ℚ) = "100:00:00,1000".data ∧
    isTimePattern (format_srt_time (720001999 / 2000 : ℚ)) = false := by
  with_unfolding_all decide

/-- Witness for C3 (amended) at 3661.5 seconds. -/
theorem C3_time_format_witness :
    ((0 : ℚ) ≤ 7323 / 2 ∧ (7323 / 2 : ℚ) < 360000 ∧
      pyRound (((7323 / 2 : ℚ) - ((⌊(7323 / 2 : ℚ)⌋ : Int) : ℚ)) * 1000) ≤ 999) ∧
    (isTimePattern (format_srt_time (7323 / 2 : ℚ)) = true ∧
      parse_srt_time (format_srt_time (7323 / 2 : ℚ)) = some (rtQ (7323 / 2 : ℚ))) := by
  refine ⟨⟨by norm_num, by norm_num, by with_unfolding_all decide⟩, ?_⟩
  exact C3_time_format (7323 / 2 : ℚ) (by norm_num) (by norm_num)
    (by with_unfolding_all decide)

/-! ### Decoder lemmas -/

theorem parseBlocksList_cons (b : List Char) (bs : List (List Char)) :
    parseBlocksList (b :: bs) = (do
      let r ← parseBlock b
      let rest ← parseBlocksList bs
      match r with
      | none => pure rest
      | some cue => pure (cue :: rest)) := rfl

theorem parseBlocksList_skip (b : List Char) (h : parseBlock b = .ok none) :
    ∀ bs1 bs2 : List (List Char),
    parseBlocksList (bs1 ++ b :: bs2) = parseBlocksList (bs1 ++ bs2) := by
  intro bs1
  induction bs1 with
  | nil =>
    intro bs2
    rw [List.nil_append, List.nil_append, parseBlocksList_cons, h]
    show (parseBlocksList bs2).bind _ = parseBlocksList bs2
    cases parseBlocksList bs2 with
    | error e => rfl
    | ok l => rfl
  | cons b1 bs1 ih =>
    intro bs2
    rw [List.cons_append, List.cons_append, parseBlocksList_cons, parseBlocksList_cons,
      ih bs2]

theorem parseBlock_some_spec (b : List Char) (cue : SrtBlock)
    (h : parseBlock b = .ok (some cue)) :
    ∃ l0 rest, splitlines (stripChars b) = l0 :: rest ∧
      isdigitStr (stripChars l0) = true ∧ 0 ≤ cue.idx := by
  rw [parseBlock] at h
  dsimp only at h
  split at h
  · injection h with h2
    exact Option.noConfusion h2
  next l0 restLines heq =>
    split at h
    next hdig =>
      refine ⟨l0, restLines, heq, hdig, ?_⟩
      split at h
      · exact Except.noConfusion h
      next l1 subtitle =>
        split at h
        next start_str mid end_str heqw =>
          split at h
          next s e hp1 hp2 =>
            injection h with h2
            injection h2 with h3
            rw [← h3]
            exact Int.ofNat_nonneg _
          next => exact Except.noConfusion h
        next => exact Except.noConfusion h
    next hdig =>
      injection h with h2
      exact Option.noConfusion h2

/-- C9 (amended): a raw block produces a cue only if its first line is
a string of decimal digits, hence a nonnegative (possibly zero) index;
a block whose first line is not all digits is skipped silently, and
deleting such a block from the block sequence leaves the decode result
of the remaining blocks unchanged and in order. -/
theorem C9_nonnumeric_blocks_skipped (b : List Char) :
    (parseBlock b = .ok none → ∀ bs1 bs2 : List (List Char),
      parseBlocksList (bs1 ++ b :: bs2) = parseBlocksList (bs1 ++ bs2)) ∧
    (∀ cue : SrtBlock, parseBlock b = .ok (some cue) →
      ∃ l0 rest, splitlines (stripChars b) = l0 :: rest ∧
        isdigitStr (stripChars l0) = true ∧ 0 ≤ cue.idx) :=
  ⟨fun h => parseBlocksList_skip b h, fun cue h => parseBlock_some_spec b cue h⟩

/-- Witness for C9 (amended): a block with a non-numeric first line is
skipped without disturbing its neighbours, and a numeric block yields a
cue with a nonnegative index. -/
theorem C9_nonnumeric_blocks_skipped_witness :
    parseBlock ("x\njunk\nhi".data) = .ok none ∧
    parseBlocksList [("1\n00:00:00,000 --> 00:00:01,000\nok".data),
        ("x\njunk\nhi".data)] =
      parseBlocksList [("1\n00:00:00,000 --> 00:00:01,000\nok".data)] := by
  constructor
  · with_unfolding_all decide
  · exact (C9_nonnumeric_blocks_skipped ("x\njunk\nhi".data)).1
      (by with_unfolding_all decide)
      [("1\n00:00:00,000 --> 00:00:01,000\nok".data)] []

/-- Counterexample to C9 as stated: the decoder accepts a block whose
first line is the digit zero, producing a cue with index 0, which is
not a positive integer. -/
theorem C9_counterexample :
    parse_srt ("0\n00:00:00,000 --> 00:00:01,000\nhi".data) =
      .ok [⟨0, 0, 1, "hi".data⟩] ∧ ¬ (0 : Int) < 0 := by
  constructor
  · with_unfolding_all decide
  · decide

/-- A raw block's time line fails to parse: it is absent, does not
split into exactly three whitespace-separated tokens, or has an
unparseable first or third token. -/
def timeLineBad : List (List Char) → Bool
  | [] => true
  | l1 :: _ =>
    match wordsOf (stripChars l1) with
    | [a, _, c] => (parse_srt_time a).isNone || (parse_srt_time c).isNone
    | _ => true

theorem parseBlock_error_of_bad_time (b l0 : List Char) (rest : List (List Char))
    (hsl : splitlines (stripChars b) = l0 :: rest)
    (hdig : isdigitStr (stripChars l0) = true) (hbad : timeLineBad rest = true) :
    parseBlock b = .error .formatError := by
  rw [parseBlock]
  dsimp only
  split
  next heq =>
    rw [hsl] at heq
    exact absurd heq (by simp)
  next l0' rest' heq =>
    rw [hsl] at heq
    injection heq with h1 h2
    subst h1
    subst h2
    rw [if_pos hdig]
    split
    · rfl
    next l1 subtitle =>
      have hbad2 : (match wordsOf (stripChars l1) with
        | [a, _, c] => (parse_srt_time a).isNone || (parse_srt_time c).isNone
        | _ => true) = true := hbad
      split
      next a mid c heqw =>
        rw [heqw] at hbad2
        have hbad3 : ((parse_srt_time a).isNone || (parse_srt_time c).isNone) = true := hbad2
        split
        next s e hp1 hp2 =>
          rw [hp1, hp2] at hbad3
          simp at hbad3
        next => rfl
      next => rfl

theorem parseBlocksList_error (b : List Char) (h : parseBlock b = .error .formatError) :
    ∀ bs : List (List Char), b ∈ bs → parseBlocksList bs = .error .formatError := by
  intro bs
  induction bs with
  | nil =>
    intro hm
    simp at hm
  | cons b1 bs ih =>
    intro hm
    rw [parseBlocksList_cons]
    rcases List.mem_cons.mp hm with hm | hm
    · subst hm
      rw [h]
      rfl
    · cases hb1 : parseBlock b1 with
      | error e =>
        cases e
        rfl
      | ok r =>
        show (parseBlocksList bs).bind _ = _
        rw [ih hm]
        rfl

/-- C5 (amended): when some raw block of the content has an all-digit
first line but a time line that fails to parse (absent, not exactly
three whitespace-separated tokens, or an unparseable timestamp token),
the whole decode fails with FormatError: no cue sequence is returned
and the failure is not recoverable per block.  Time lines that parse
without having the canonical two-digit shape are accepted, however
(see the counterexample). -/
theorem C5_unparseable_time_is_fatal (content b : List Char)
    (hb : b ∈ splitBlocks (stripChars content))
    (l0 : List Char) (rest : List (List Char))
    (hsl : splitlines (stripChars b) = l0 :: rest)
    (hdig : isdigitStr (stripChars l0) = true)
    (hbad : timeLineBad rest = true) :
    parse_srt content = .error .formatError := by
  rw [parse_srt]
  exact parseBlocksList_error b
    (parseBlock_error_of_bad_time b l0 rest hsl hdig hbad) _ hb

/-- Witness for C5 (amended): a numeric block with a garbage time line
makes the whole decode fail. -/
theorem C5_unparseable_time_is_fatal_witness :
    (("1\nbadtime\nx".data) ∈ splitBlocks (stripChars ("1\nbadtime\nx".data)) ∧
      splitlines (stripChars ("1\nbadtime\nx".data)) =
        ["1".data, "badtime".data, "x".data] ∧
      isdigitStr (stripChars ("1".data)) = true ∧
      timeLineBad ["badtime".data, "x".data] = true) ∧
    parse_srt ("1\nbadtime\nx".data) = .error .formatError := by
  refine ⟨⟨by with_unfolding_all decide, by with_unfolding_all decide,
    by with_unfolding_all decide, by with_unfolding_all decide⟩, ?_⟩
  exact C5_unparseable_time_is_fatal ("1\nbadtime\nx".data) ("1\nbadtime\nx".data)
    (by with_unfolding_all decide) ("1".data) ["badtime".data, "x".data]
    (by with_unfolding_all decide) (by with_unfolding_all decide)
    (by with_unfolding_all decide)

/-- Counterexample to C5 as stated: a time line that is not of the
exact HH:MM:SS,mmm form (single-digit fields) is not rejected; the
decode succeeds and returns a cue, so a non-canonical time line does
not make the whole decode fail. -/
theorem C5_counterexample :
    parse_srt ("1\n0:0:0,0 --> 0:0:0,5\nhi".data) =
      .ok [⟨1, 0, 1 / 200, "hi".data⟩] ∧
    isTimePattern ("0:0:0,0".data) = false := by
  with_unfolding_all decide

/-! ### Round trip of the encoder and decoder -/

/-- The chunk `write_srt` emits for one block: index line, time line,
stripped text and a blank-line separator. -/
def encodeChunk (b : SrtBlock) : List Char :=
  intRepr b.idx ++ '\n' ::
    (format_srt_time b.start ++ " --> ".data ++ format_srt_time b.stop) ++ '\n' ::
      (stripChars b.text ++ "\n\n".data)

/-- The time line `write_srt` emits for one block. -/
def timeLineOf (b : SrtBlock) : List Char :=
  format_srt_time b.start ++ " --> ".data ++ format_srt_time b.stop

/-- The part of a block's chunk before its trailing newlines: the index
line, the time line and, when the stripped text is nonempty, the text
line. -/
def piece (b : SrtBlock) : List Char :=
  intRepr b.idx ++ '\n' :: timeLineOf b ++
    (if stripChars b.text = [] then [] else '\n' :: stripChars b.text)

/-- Number of newline characters a block's chunk ends with: the two
separator newlines, preceded by the text line's newline when the
stripped text is empty. -/
def sepN (b : SrtBlock) : Nat := if stripChars b.text = [] then 3 else 2

/-- Concatenation of the blocks' pieces with their newline runs, the
last block's trailing newlines omitted: the stripped content of the
written file. -/
def piecesSep : List SrtBlock → List Char
  | [] => []
  | [b] => piece b
  | b :: b2 :: bs => piece b ++ List.replicate (sepN b) '\n' ++ piecesSep (b2 :: bs)

/-- A block the round trip can reproduce: nonnegative index and
timestamps and a text without line breaks or outer whitespace. -/
def blockOk (b : SrtBlock) : Prop :=
  0 ≤ b.idx ∧ 0 ≤ b.start ∧ 0 ≤ b.stop ∧ textClean b.text = true

/-- The cue the decoder recovers from a well-formed block's chunk: the
same index and text, the timestamps rounded to the written
millisecond. -/
def reparseBlock (b : SrtBlock) : SrtBlock :=
  ⟨b.idx, rtQ b.start, rtQ b.stop, b.text⟩

/-- Every newline in the list is immediately followed, within the list,
by a non-whitespace character (in particular the list does not end in a
newline): such a list can never contain the decoder's blank-line block
separator. -/
def nlOk : List Char → Bool
  | [] => true
  | ['\n'] => false
  | '\n' :: c :: rest => !isSpace c && nlOk (c :: rest)
  | _ :: rest => nlOk rest

theorem write_srt_eq_chunks (bs : List SrtBlock) :
    write_srt bs = (bs.map encodeChunk).flatten := rfl

theorem write_srt_cons (b : SrtBlock) (bs : List SrtBlock) :
    write_srt (b :: bs) = encodeChunk b ++ write_srt bs := by
  rw [write_srt_eq_chunks, write_srt_eq_chunks, List.map_cons, List.flatten_cons]

theorem encodeChunk_eq_piece (b : SrtBlock) :
    encodeChunk b = piece b ++ List.replicate (sepN b) '\n' := by
  rw [encodeChunk, piece, sepN, timeLineOf,
    show "\n\n".data = ['\n', '\n'] from rfl]
  by_cases h : stripChars b.text = []
  · rw [if_pos h, if_pos h, h, show List.replicate 3 '\n' = ['\n', '\n', '\n'] from rfl]
    simp
  · rw [if_neg h, if_neg h, show List.replicate 2 '\n' = ['\n', '\n'] from rfl]
    simp

theorem nlOk_nil : nlOk [] = true := rfl

theorem nlOk_nl_cons (c : Char) (rest : List Char) :
    nlOk ('\n' :: c :: rest) = (!isSpace c && nlOk (c :: rest)) := rfl

theorem nlOk_cons_nonnl (c : Char) (rest : List Char) (hc : c ≠ '\n') :
    nlOk (c :: rest) = nlOk rest := by
  rw [nlOk.eq_def]
  split
  · rename_i heq
    exact absurd heq (by simp)
  · rename_i heq
    injection heq with h1 h2
    exact absurd h1 hc
  · rename_i heq
    injection heq with h4 h5
    exact absurd h4 hc
  · rename_i heq
    injection heq with h4 h5
    rw [h5]

theorem nlOk_append_no_nl (x y : List Char) (hx : ∀ c ∈ x, c ≠ '\n') :
    nlOk (x ++ y) = nlOk y := by
  induction x with
  | nil => rfl
  | cons c x2 ih =>
    rw [List.cons_append, nlOk_cons_nonnl c _ (hx c (by simp)),
      ih (fun d hd => hx d (List.mem_cons_of_mem c hd))]

theorem nlOk_no_nl (x : List Char) (hx : ∀ c ∈ x, c ≠ '\n') : nlOk x = true := by
  rw [← List.append_nil x, nlOk_append_no_nl x [] hx]
  rfl

theorem splitlinesAux_cons_nonlb (cur : List Char) (c : Char) (rest : List Char)
    (hc : isLinebreak c = false) :
    splitlinesAux cur (c :: rest) = splitlinesAux (c :: cur) rest := by
  have hr : c ≠ '\r' := by
    intro h
    rw [h] at hc
    exact absurd hc (by decide)
  rw [splitlinesAux.eq_def]
  split
  · rename_i heq
    exact absurd heq (by simp)
  · rename_i heq
    injection heq with h1 h2
    exact absurd h1 hr
  · rename_i heq
    injection heq with h4 h5
    rw [← h4, ← h5, hc]
    simp

theorem splitlinesAux_nl (cur rest : List Char) :
    splitlinesAux cur ('\n' :: rest) = cur.reverse :: splitlinesAux [] rest := rfl

theorem goSplit_none_nil (pending : List Char) :
    goSplit pending none [] = [pending.reverse] := rfl

theorem goSplit_none_cons_nl (pending rest : List Char) :
    goSplit pending none ('\n' :: rest) = goSplit pending (some ['\n']) rest := by
  simp [goSplit]

theorem goSplit_none_cons (pending rest : List Char) (c : Char) (hc : c ≠ '\n') :
    goSplit pending none (c :: rest) = goSplit (c :: pending) none rest := by
  simp [goSplit, hc]

theorem goSplit_sep2 (pending rest : List Char) (c : Char) (hc : isSpace c = false) :
    goSplit pending none ('\n' :: '\n' :: c :: rest) =
      pending.reverse :: goSplit [] none (c :: rest) := by
  have hc' : c ≠ '\n' := by
    intro h
    rw [h] at hc
    exact absurd hc (by decide)
  rw [goSplit_none_cons_nl]
  rw [show goSplit pending (some ['\n']) ('\n' :: c :: rest)
      = goSplit pending (some ['\n', '\n']) (c :: rest) by simp +decide [goSplit]]
  rw [show goSplit pending (some ['\n', '\n']) (c :: rest)
      = pending.reverse :: goSplit [c] none rest by simp +decide [goSplit, hc, countNL]]
  rw [goSplit_none_cons [] rest c hc']

theorem goSplit_sep3 (pending rest : List Char) (c : Char) (hc : isSpace c = false) :
    goSplit pending none ('\n' :: '\n' :: '\n' :: c :: rest) =
      pending.reverse :: goSplit [] none (c :: rest) := by
  have hc' : c ≠ '\n' := by
    intro h
    rw [h] at hc
    exact absurd hc (by decide)
  rw [goSplit_none_cons_nl]
  rw [show goSplit pending (some ['\n']) ('\n' :: '\n' :: c :: rest)
      = goSplit pending (some ['\n', '\n']) ('\n' :: c :: rest) by simp +decide [goSplit]]
  rw [show goSplit pending (some ['\n', '\n']) ('\n' :: c :: rest)
      = goSplit pending (some ['\n', '\n', '\n']) (c :: rest) by simp +decide [goSplit]]
  rw [show goSplit pending (some ['\n', '\n', '\n']) (c :: rest)
      = pending.reverse :: goSplit [c] none rest by simp +decide [goSplit, hc, countNL]]
  rw [goSplit_none_cons [] rest c hc']

theorem ne_nl_of_no_space (c : Char) (h : isSpace c = false) : c ≠ '\n' := by
  intro hx
  rw [hx] at h
  exact absurd h (by decide)

theorem ne_nl_of_no_lb (c : Char) (h : isLinebreak c = false) : c ≠ '\n' := by
  intro hx
  rw [hx] at h
  exact absurd h (by decide)

theorem zfill_ne_nil (w : Nat) (ds : List Char) (hds : ds ≠ []) : zfill w ds ≠ [] := by
  rw [zfill]
  intro hx
  exact hds (List.append_eq_nil.mp hx).2

theorem cons_head_transfer (x : List Char) (y : List Char) (c : Char) (cs : List Char)
    (hx : x = c :: cs) : ∃ ds, x ++ y = c :: ds :=
  ⟨cs ++ y, by rw [hx]; simp⟩

theorem append_ends (x l : List Char) (P : Char → Prop) (hne : l ≠ [])
    (h : ∀ c ∈ l, P c) : ∃ y d, x ++ l = y ++ [d] ∧ P d := by
  refine ⟨x ++ l.dropLast, l.getLast hne, ?_, h _ (List.getLast_mem hne)⟩
  rw [List.append_assoc, List.dropLast_append_getLast hne]

theorem format_chars (t : ℚ) (ht : 0 ≤ t) :
    ∀ c ∈ format_srt_time t, c.isDigit = true ∨ c = ':' ∨ c = ',' := by
  rw [format_srt_time_eq t ht]
  have hA : ∀ c ∈ zfill 2 (decRepr (⌊t / 3600⌋).toNat),
      c.isDigit = true ∨ c = ':' ∨ c = ',' :=
    fun c hc => Or.inl (zfill_digits _ _ (decRepr_digits _) c hc)
  have hB : ∀ c ∈ zfill 2 (decRepr (⌊pyMod t 3600 / 60⌋).toNat),
      c.isDigit = true ∨ c = ':' ∨ c = ',' :=
    fun c hc => Or.inl (zfill_digits _ _ (decRepr_digits _) c hc)
  have hC : ∀ c ∈ zfill 2 (decRepr (⌊pyMod (pyMod t 3600) 60⌋).toNat),
      c.isDigit = true ∨ c = ':' ∨ c = ',' :=
    fun c hc => Or.inl (zfill_digits _ _ (decRepr_digits _) c hc)
  have hD : ∀ c ∈ zfill 3 (decRepr (pyRound ((t - ((⌊t⌋ : Int) : ℚ)) * 1000)).toNat),
      c.isDigit = true ∨ c = ':' ∨ c = ',' :=
    fun c hc => Or.inl (zfill_digits _ _ (decRepr_digits _) c hc)
  have h1 : (':' : Char).isDigit = true ∨ (':' : Char) = ':' ∨ (':' : Char) = ',' :=
    Or.inr (Or.inl rfl)
  have h2 : (',' : Char).isDigit = true ∨ (',' : Char) = ':' ∨ (',' : Char) = ',' :=
    Or.inr (Or.inr rfl)
  simp only [List.forall_mem_append, List.forall_mem_cons]
  tauto

theorem format_no_space (t : ℚ) (ht : 0 ≤ t) :
    ∀ c ∈ format_srt_time t, isSpace c = false := by
  intro c hc
  rcases format_chars t ht c hc with h | h | h
  · exact not_space_of_digit c h
  · rw [h]
    decide
  · rw [h]
    decide

theorem format_no_lb (t : ℚ) (ht : 0 ≤ t) :
    ∀ c ∈ format_srt_time t, isLinebreak c = false := by
  intro c hc
  rcases format_chars t ht c hc with h | h | h
  · exact not_linebreak_of_digit c h
  · rw [h]
    decide
  · rw [h]
    decide

theorem format_head_digit (t : ℚ) (ht : 0 ≤ t) :
    ∃ c cs, format_srt_time t = c :: cs ∧ c.isDigit = true := by
  have hA : ∀ c ∈ zfill 2 (decRepr (⌊t / 3600⌋).toNat), c.isDigit = true :=
    zfill_digits _ _ (decRepr_digits _)
  have hAne : zfill 2 (decRepr (⌊t / 3600⌋).toNat) ≠ [] :=
    zfill_ne_nil _ _ (decRepr_ne_nil _)
  cases hz : zfill 2 (decRepr (⌊t / 3600⌋).toNat) with
  | nil => exact absurd hz hAne
  | cons c cs =>
    obtain ⟨ds, hds⟩ := cons_head_transfer _ (':' ::
        zfill 2 (decRepr (⌊pyMod t 3600 / 60⌋).toNat) ++ ':' ::
          zfill 2 (decRepr (⌊pyMod (pyMod t 3600) 60⌋).toNat) ++ ',' ::
            zfill 3 (decRepr (pyRound ((t - ((⌊t⌋ : Int) : ℚ)) * 1000)).toNat)) c cs hz
    refine ⟨c, ds, ?_, hA c (by rw [hz]; simp)⟩
    rw [format_srt_time_eq t ht, ← hds]
    simp [List.append_assoc]

theorem format_ne_nil (t : ℚ) (ht : 0 ≤ t) : format_srt_time t ≠ [] := by
  obtain ⟨c, cs, hcs, _⟩ := format_head_digit t ht
  rw [hcs]
  simp

theorem format_ends_digit (t : ℚ) (ht : 0 ≤ t) :
    ∃ y d, format_srt_time t = y ++ [d] ∧ d.isDigit = true := by
  have hDne : zfill 3 (decRepr (pyRound ((t - ((⌊t⌋ : Int) : ℚ)) * 1000)).toNat) ≠ [] :=
    zfill_ne_nil _ _ (decRepr_ne_nil _)
  have hDdig : ∀ c ∈ zfill 3 (decRepr (pyRound ((t - ((⌊t⌋ : Int) : ℚ)) * 1000)).toNat),
      c.isDigit = true := zfill_digits _ _ (decRepr_digits _)
  obtain ⟨y, d, hyd, hd⟩ := append_ends (zfill 2 (decRepr (⌊t / 3600⌋).toNat) ++ ':' ::
      zfill 2 (decRepr (⌊pyMod t 3600 / 60⌋).toNat) ++ ':' ::
        zfill 2 (decRepr (⌊pyMod (pyMod t 3600) 60⌋).toNat) ++ [','])
      (zfill 3 (decRepr (pyRound ((t - ((⌊t⌋ : Int) : ℚ)) * 1000)).toNat))
      (fun c => c.isDigit = true) hDne hDdig
  refine ⟨y, d, ?_, hd⟩
  rw [format_srt_time_eq t ht, ← hyd]
  simp [List.append_assoc]

theorem timeLine_shape (b : SrtBlock) :
    timeLineOf b =
      format_srt_time b.start ++ ' ' :: ("-->".data ++ ' ' :: format_srt_time b.stop) := by
  rw [timeLineOf, show " --> ".data = [' ', '-', '-', '>', ' '] from rfl,
    show ("-->".data : List Char) = ['-', '-', '>'] from rfl]
  simp only [List.append_assoc, List.cons_append, List.nil_append]

theorem wordsOf_timeLine (b : SrtBlock) (h1 : 0 ≤ b.start) (h2 : 0 ≤ b.stop) :
    wordsOf (timeLineOf b) =
      [format_srt_time b.start, "-->".data, format_srt_time b.stop] := by
  rw [timeLine_shape, wordsOf_append_space, wordsOf_append_space]
  rw [wordsOf_all_nonspace (format_srt_time b.start) (format_ne_nil b.start h1)
    (format_no_space b.start h1)]
  rw [wordsOf_all_nonspace ("-->".data) (by decide) (by decide)]
  rw [wordsOf_all_nonspace (format_srt_time b.stop) (format_ne_nil b.stop h2)
    (format_no_space b.stop h2)]
  rfl

theorem timeLine_no_lb (b : SrtBlock) (h1 : 0 ≤ b.start) (h2 : 0 ≤ b.stop) :
    ∀ c ∈ timeLineOf b, isLinebreak c = false := by
  intro c hc
  rw [timeLineOf] at hc
  rcases List.mem_append.mp hc with hc | hc
  · rcases List.mem_append.mp hc with hc | hc
    · exact format_no_lb b.start h1 c hc
    · rw [show " --> ".data = [' ', '-', '-', '>', ' '] from rfl] at hc
      simp only [List.mem_cons, List.not_mem_nil, or_false] at hc
      rcases hc with rfl | rfl | rfl | rfl | rfl <;> decide
  · exact format_no_lb b.stop h2 c hc

theorem timeLine_no_nl (b : SrtBlock) (h1 : 0 ≤ b.start) (h2 : 0 ≤ b.stop) :
    ∀ c ∈ timeLineOf b, c ≠ '\n' :=
  fun c hc => ne_nl_of_no_lb c (timeLine_no_lb b h1 h2 c hc)

theorem timeLine_head_digit (b : SrtBlock) (h1 : 0 ≤ b.start) :
    ∃ c cs, timeLineOf b = c :: cs ∧ c.isDigit = true := by
  obtain ⟨c, cs, hcs, hcd⟩ := format_head_digit b.start h1
  obtain ⟨ds, hds⟩ := cons_head_transfer _ (" --> ".data ++ format_srt_time b.stop) c cs hcs
  refine ⟨c, ds, ?_, hcd⟩
  rw [timeLineOf, List.append_assoc, hds]

theorem timeLine_ends_digit (b : SrtBlock) (h2 : 0 ≤ b.stop) :
    ∃ y d, timeLineOf b = y ++ [d] ∧ d.isDigit = true := by
  obtain ⟨y, d, hyd, hd⟩ := format_ends_digit b.stop h2
  refine ⟨format_srt_time b.start ++ " --> ".data ++ y, d, ?_, hd⟩
  rw [timeLineOf, hyd]
  simp [List.append_assoc]

theorem intRepr_nonneg (z : Int) (hz : 0 ≤ z) : intRepr z = decRepr z.toNat := by
  rw [intRepr, if_neg (by omega)]

theorem piece_head_digit (b : SrtBlock) (hidx : 0 ≤ b.idx) :
    ∃ c cs, piece b = c :: cs ∧ c.isDigit = true := by
  rw [piece, intRepr_nonneg b.idx hidx]
  cases hz : decRepr b.idx.toNat with
  | nil => exact absurd hz (decRepr_ne_nil _)
  | cons c cs =>
    refine ⟨c, cs ++ ('\n' :: timeLineOf b ++
      (if stripChars b.text = [] then [] else '\n' :: stripChars b.text)), ?_,
      decRepr_digits _ c (by rw [hz]; simp)⟩
    simp only [List.append_assoc, List.cons_append]

theorem length_dropTrailingWS_le (l : List Char) :
    (dropTrailingWS l).length ≤ l.length := by
  rw [dropTrailingWS, List.length_reverse]
  calc (l.reverse.dropWhile isSpace).length
      ≤ l.reverse.length := length_dropWhile_le _ _
    _ = l.length := List.length_reverse l

theorem length_stripChars_le (l : List Char) : (stripChars l).length ≤ l.length := by
  rw [stripChars]
  exact le_trans (length_dropTrailingWS_le _) (length_dropWhile_le _ _)

theorem strip_fixed_head (c : Char) (x : List Char) (h : stripChars (c :: x) = c :: x) :
    isSpace c = false := by
  cases hc : isSpace c
  · rfl
  · exfalso
    have h1 : stripChars (c :: x) = dropTrailingWS (x.dropWhile isSpace) := by
      rw [stripChars, List.dropWhile_cons_of_pos hc]
    have h2 := length_dropTrailingWS_le (x.dropWhile isSpace)
    have h3 := length_dropWhile_le isSpace x
    rw [h] at h1
    have h4 := congrArg List.length h1
    simp only [List.length_cons] at h4
    omega

theorem strip_fixed_head_ex (l : List Char) (hne : l ≠ []) (h : stripChars l = l) :
    ∃ c x, l = c :: x ∧ isSpace c = false := by
  cases l with
  | nil => exact absurd rfl hne
  | cons c x => exact ⟨c, x, rfl, strip_fixed_head c x h⟩

theorem dropTrailingWS_append_space (x : List Char) (d : Char) (hd : isSpace d = true) :
    dropTrailingWS (x ++ [d]) = dropTrailingWS x := by
  rw [dropTrailingWS, dropTrailingWS, List.reverse_append]
  simp only [List.reverse_cons, List.reverse_nil, List.nil_append, List.singleton_append]
  rw [List.dropWhile_cons_of_pos hd]

theorem dropTrailingWS_last_nonspace (y : List Char) (d : Char) (hd : isSpace d = false) :
    dropTrailingWS (y ++ [d]) = y ++ [d] := by
  rw [dropTrailingWS, List.reverse_append]
  simp only [List.reverse_cons, List.reverse_nil, List.nil_append, List.singleton_append]
  rw [List.dropWhile_cons_of_neg (by simp [hd])]
  simp

theorem strip_fixed_last (l : List Char) (hne : l ≠ []) (h : stripChars l = l) :
    ∃ y d, l = y ++ [d] ∧ isSpace d = false := by
  refine ⟨l.dropLast, l.getLast hne, (List.dropLast_append_getLast hne).symm, ?_⟩
  cases hd : isSpace (l.getLast hne)
  · rfl
  · exfalso
    have hsplit : l = l.dropLast ++ [l.getLast hne] :=
      (List.dropLast_append_getLast hne).symm
    have h1 : stripChars l = List.dropWhile isSpace (dropTrailingWS l) :=
      stripChars_eq_dropWhile_dropTrailing l
    have h2 : dropTrailingWS l = dropTrailingWS l.dropLast := by
      conv_lhs => rw [hsplit]
      exact dropTrailingWS_append_space _ _ hd
    have h3 := length_dropWhile_le isSpace (dropTrailingWS l.dropLast)
    have h4 := length_dropTrailingWS_le l.dropLast
    have h5 : l.dropLast.length = l.length - 1 := List.length_dropLast l
    have h6 : 0 < l.length := List.length_pos.mpr hne
    rw [h1, h2] at h
    have h7 := congrArg List.length h
    omega

theorem stripChars_id_of_ends (l : List Char) (c : Char) (x y : List Char) (d : Char)
    (h1 : l = c :: x) (h2 : l = y ++ [d]) (hc : isSpace c = false)
    (hd : isSpace d = false) : stripChars l = l := by
  have h5 : l.dropWhile isSpace = l := by
    rw [h1]
    exact List.dropWhile_cons_of_neg (by simp [hc])
  rw [stripChars, h5, h2, dropTrailingWS_last_nonspace y d hd]

theorem splitlinesAux_nil_cur (cur : List Char) :
    splitlinesAux cur [] = if cur.isEmpty then [] else [cur.reverse] := rfl

theorem splitlinesAux_no_lb_append (a : List Char) : ∀ (cur y : List Char),
    (∀ c ∈ a, isLinebreak c = false) →
    splitlinesAux cur (a ++ '\n' :: y) = (cur.reverse ++ a) :: splitlinesAux [] y := by
  induction a with
  | nil =>
    intro cur y _
    rw [List.nil_append, splitlinesAux_nl, List.append_nil]
  | cons c a2 ih =>
    intro cur y h
    rw [List.cons_append, splitlinesAux_cons_nonlb cur c _ (h c (by simp)),
      ih (c :: cur) y (fun d hd => h d (List.mem_cons_of_mem c hd))]
    congr 1
    simp

theorem splitlinesAux_no_lb (a : List Char) : ∀ cur : List Char,
    (∀ c ∈ a, isLinebreak c = false) →
    splitlinesAux cur a =
      if cur.reverse ++ a = [] then [] else [cur.reverse ++ a] := by
  induction a with
  | nil =>
    intro cur _
    rw [splitlinesAux_nil_cur, List.append_nil]
    cases cur with
    | nil => rfl
    | cons e es =>
      rw [if_neg (by simp), if_neg (by simp)]
  | cons c a2 ih =>
    intro cur h
    rw [splitlinesAux_cons_nonlb cur c a2 (h c (by simp)),
      ih (c :: cur) (fun d hd => h d (List.mem_cons_of_mem c hd))]
    have he : (c :: cur).reverse ++ a2 = cur.reverse ++ c :: a2 := by simp
    rw [he]

theorem splitlines_block2 (a b : List Char)
    (ha : ∀ c ∈ a, isLinebreak c = false) (hb : ∀ c ∈ b, isLinebreak c = false)
    (hbne : b ≠ []) :
    splitlines (a ++ '\n' :: b) = [a, b] := by
  rw [splitlines, splitlinesAux_no_lb_append a [] b ha, splitlinesAux_no_lb b [] hb]
  simp [hbne]

theorem splitlines_block3 (a b c : List Char)
    (ha : ∀ x ∈ a, isLinebreak x = false) (hb : ∀ x ∈ b, isLinebreak x = false)
    (hc : ∀ x ∈ c, isLinebreak x = false) (hcne : c ≠ []) :
    splitlines (a ++ '\n' :: (b ++ '\n' :: c)) = [a, b, c] := by
  rw [splitlines, splitlinesAux_no_lb_append a [] _ ha,
    splitlinesAux_no_lb_append b [] c hb, splitlinesAux_no_lb c [] hc]
  simp [hcne]

theorem textClean_spec (t : List Char) (h : textClean t = true) :
    stripChars t = t ∧ ∀ c ∈ t, isLinebreak c = false := by
  rw [textClean, Bool.and_eq_true] at h
  refine ⟨of_decide_eq_true h.1, ?_⟩
  intro c hc
  have h2 := h.2
  rw [List.all_eq_true] at h2
  have h3 := h2 c hc
  simp only [Bool.not_eq_true'] at h3
  exact h3

theorem piece_empty_text (b : SrtBlock) (h : stripChars b.text = []) :
    piece b = intRepr b.idx ++ '\n' :: timeLineOf b := by
  rw [piece, if_pos h, List.append_nil]

theorem piece_nonempty_text (b : SrtBlock) (h : stripChars b.text ≠ []) :
    piece b = intRepr b.idx ++ '\n' :: (timeLineOf b ++ '\n' :: stripChars b.text) := by
  rw [piece, if_neg h]
  simp only [List.append_assoc, List.cons_append]

theorem timeLine_ne_nil (b : SrtBlock) (h1 : 0 ≤ b.start) : timeLineOf b ≠ [] := by
  obtain ⟨c, cs, hcs, _⟩ := timeLine_head_digit b h1
  rw [hcs]
  simp

theorem piece_ends_nonspace (b : SrtBlock) (hok : blockOk b) :
    ∃ y d, piece b = y ++ [d] ∧ isSpace d = false := by
  obtain ⟨hidx, hst, hsp, htc⟩ := hok
  by_cases h : stripChars b.text = []
  · rw [piece_empty_text b h]
    obtain ⟨y, d, hyd, hd⟩ := timeLine_ends_digit b hsp
    refine ⟨intRepr b.idx ++ '\n' :: y, d, ?_, not_space_of_digit d hd⟩
    rw [hyd]
    simp only [List.append_assoc, List.cons_append]
  · have htext := (textClean_spec b.text htc).1
    have htne : b.text ≠ [] := fun hx => h (by rw [hx]; rfl)
    obtain ⟨y, d, hyd, hd⟩ := strip_fixed_last b.text htne htext
    rw [piece_nonempty_text b h, htext]
    refine ⟨intRepr b.idx ++ '\n' :: (timeLineOf b ++ '\n' :: y), d, ?_, hd⟩
    rw [hyd]
    simp only [List.append_assoc, List.cons_append]

theorem stripChars_piece (b : SrtBlock) (hok : blockOk b) :
    stripChars (piece b) = piece b := by
  obtain ⟨c, cs, hcs, hcd⟩ := piece_head_digit b hok.1
  obtain ⟨y, d, hyd, hd⟩ := piece_ends_nonspace b hok
  exact stripChars_id_of_ends (piece b) c cs y d hcs hyd (not_space_of_digit c hcd) hd

theorem intRepr_no_lb (b : SrtBlock) (hidx : 0 ≤ b.idx) :
    ∀ c ∈ intRepr b.idx, isLinebreak c = false := by
  rw [intRepr_nonneg b.idx hidx]
  exact fun c hc => not_linebreak_of_digit c (decRepr_digits _ c hc)

theorem splitlines_piece_empty (b : SrtBlock) (hok : blockOk b)
    (h : stripChars b.text = []) :
    splitlines (piece b) = [intRepr b.idx, timeLineOf b] := by
  rw [piece_empty_text b h]
  exact splitlines_block2 _ _ (intRepr_no_lb b hok.1)
    (timeLine_no_lb b hok.2.1 hok.2.2.1) (timeLine_ne_nil b hok.2.1)

theorem splitlines_piece_nonempty (b : SrtBlock) (hok : blockOk b)
    (h : stripChars b.text ≠ []) :
    splitlines (piece b) = [intRepr b.idx, timeLineOf b, b.text] := by
  have htext := (textClean_spec b.text hok.2.2.2).1
  have htne : b.text ≠ [] := fun hx => h (by rw [hx]; rfl)
  rw [piece_nonempty_text b h, htext]
  exact splitlines_block3 _ _ _ (intRepr_no_lb b hok.1)
    (timeLine_no_lb b hok.2.1 hok.2.2.1) (textClean_spec b.text hok.2.2.2).2 htne

theorem parseBlock_lines3 (blk idxL TL txt F1 M F2 : List Char) (s e : ℚ)
    (hsl : splitlines (stripChars blk) = [idxL, TL, txt])
    (hidxs : stripChars idxL = idxL) (hdig : isdigitStr idxL = true)
    (hTLs : stripChars TL = TL) (hw : wordsOf TL = [F1, M, F2])
    (hp1 : parse_srt_time F1 = some s) (hp2 : parse_srt_time F2 = some e)
    (htxt : stripChars txt = txt) :
    parseBlock blk = .ok (some ⟨(digitsVal idxL : Nat), s, e, txt⟩) := by
  rw [parseBlock, hsl]
  dsimp only
  rw [hidxs, if_pos hdig, hTLs, hw]
  dsimp only
  rw [hp1, hp2]
  dsimp only
  rw [List.map_cons, List.map_nil, htxt, intercalate_single, htxt]

theorem parseBlock_lines2 (blk idxL TL F1 M F2 : List Char) (s e : ℚ)
    (hsl : splitlines (stripChars blk) = [idxL, TL])
    (hidxs : stripChars idxL = idxL) (hdig : isdigitStr idxL = true)
    (hTLs : stripChars TL = TL) (hw : wordsOf TL = [F1, M, F2])
    (hp1 : parse_srt_time F1 = some s) (hp2 : parse_srt_time F2 = some e) :
    parseBlock blk = .ok (some ⟨(digitsVal idxL : Nat), s, e, []⟩) := by
  rw [parseBlock, hsl]
  dsimp only
  rw [hidxs, if_pos hdig, hTLs, hw]
  dsimp only
  rw [hp1, hp2]
  dsimp only
  rw [List.map_nil]
  rfl

theorem parseBlock_piece (b : SrtBlock) (hok : blockOk b) :
    parseBlock (piece b) = .ok (some (reparseBlock b)) := by
  obtain ⟨hidx, hst, hsp, htc⟩ := hok
  have htext := (textClean_spec b.text htc).1
  have hidxs : stripChars (intRepr b.idx) = intRepr b.idx := by
    rw [intRepr_nonneg b.idx hidx]
    exact stripChars_of_no_space _
      (fun c hc => not_space_of_digit c (decRepr_digits _ c hc))
  have hdig : isdigitStr (intRepr b.idx) = true := by
    rw [intRepr_nonneg b.idx hidx]
    exact isdigitStr_of _ (decRepr_ne_nil _) (decRepr_digits _)
  have hTLs : stripChars (timeLineOf b) = timeLineOf b := by
    obtain ⟨c, cs, hcs, hcd⟩ := timeLine_head_digit b hst
    obtain ⟨y, d, hyd, hdd⟩ := timeLine_ends_digit b hsp
    exact stripChars_id_of_ends _ c cs y d hcs hyd (not_space_of_digit c hcd)
      (not_space_of_digit d hdd)
  have hw := wordsOf_timeLine b hst hsp
  have hp1 := parse_format_srt_time b.start hst
  have hp2 := parse_format_srt_time b.stop hsp
  have hval : ((digitsVal (intRepr b.idx) : Nat) : Int) = b.idx := by
    rw [intRepr_nonneg b.idx hidx, digitsVal_decRepr]
    exact_mod_cast Int.toNat_of_nonneg hidx
  by_cases h : stripChars b.text = []
  · have hsl : splitlines (stripChars (piece b)) = [intRepr b.idx, timeLineOf b] := by
      rw [stripChars_piece b ⟨hidx, hst, hsp, htc⟩]
      exact splitlines_piece_empty b ⟨hidx, hst, hsp, htc⟩ h
    have hred := parseBlock_lines2 (piece b) (intRepr b.idx) (timeLineOf b)
      (format_srt_time b.start) ("-->".data) (format_srt_time b.stop)
      (rtQ b.start) (rtQ b.stop) hsl hidxs hdig hTLs hw hp1 hp2
    have htnil : b.text = [] := by rw [← htext]; exact h
    rw [hred, reparseBlock, hval, htnil]
  · have hsl : splitlines (stripChars (piece b)) =
        [intRepr b.idx, timeLineOf b, b.text] := by
      rw [stripChars_piece b ⟨hidx, hst, hsp, htc⟩]
      exact splitlines_piece_nonempty b ⟨hidx, hst, hsp, htc⟩ h
    have hred := parseBlock_lines3 (piece b) (intRepr b.idx) (timeLineOf b) b.text
      (format_srt_time b.start) ("-->".data) (format_srt_time b.stop)
      (rtQ b.start) (rtQ b.stop) hsl hidxs hdig hTLs hw hp1 hp2 htext
    rw [hred, reparseBlock, hval]

theorem goSplit_scan_aux : ∀ (n : Nat) (p : List Char), p.length ≤ n → nlOk p = true →
    ∀ (pending rest : List Char),
    goSplit pending none (p ++ rest) = goSplit (p.reverse ++ pending) none rest := by
  intro n
  induction n with
  | zero =>
    intro p hp _ pending rest
    have hp0 : p = [] := List.length_eq_zero.mp (Nat.le_zero.mp hp)
    rw [hp0]
    simp
  | succ n ih =>
    intro p hp hok pending rest
    cases p with
    | nil => simp
    | cons c p2 =>
      by_cases hc : c = '\n'
      · subst hc
        cases p2 with
        | nil => exact absurd hok (by decide)
        | cons d p3 =>
          rw [nlOk_nl_cons, Bool.and_eq_true, Bool.not_eq_true'] at hok
          obtain ⟨hd, hok2⟩ := hok
          have hd' : d ≠ '\n' := ne_nl_of_no_space d hd
          have hok3 : nlOk p3 = true := by
            rw [← nlOk_cons_nonnl d p3 hd']
            exact hok2
          rw [List.cons_append, List.cons_append, goSplit_none_cons_nl]
          rw [show goSplit pending (some ['\n']) (d :: (p3 ++ rest))
              = goSplit (d :: '\n' :: pending) none (p3 ++ rest) by
                simp +decide [goSplit, hd, countNL]]
          rw [ih p3 (by simp at hp; omega) hok3 (d :: '\n' :: pending) rest]
          congr 1
          simp
      · rw [List.cons_append, goSplit_none_cons pending _ c hc]
        have hok2 : nlOk p2 = true := by
          rw [← nlOk_cons_nonnl c p2 hc]
          exact hok
        rw [ih p2 (by simp at hp; omega) hok2 (c :: pending) rest]
        congr 1
        simp

theorem goSplit_scan (p pending rest : List Char) (hok : nlOk p = true) :
    goSplit pending none (p ++ rest) = goSplit (p.reverse ++ pending) none rest :=
  goSplit_scan_aux p.length p le_rfl hok pending rest

theorem piece_nlOk (b : SrtBlock) (hok : blockOk b) : nlOk (piece b) = true := by
  obtain ⟨hidx, hst, hsp, htc⟩ := hok
  have hino : ∀ c ∈ intRepr b.idx, c ≠ '\n' := by
    rw [intRepr_nonneg b.idx hidx]
    exact fun c hc => ne_nl_of_no_space c (not_space_of_digit c (decRepr_digits _ c hc))
  obtain ⟨d, ds, hds, hdd⟩ := timeLine_head_digit b hst
  have hTLno : ∀ c ∈ timeLineOf b, c ≠ '\n' := timeLine_no_nl b hst hsp
  by_cases h : stripChars b.text = []
  · rw [piece_empty_text b h, nlOk_append_no_nl _ _ hino, hds, nlOk_nl_cons,
      not_space_of_digit d hdd, show (!false) = true from rfl, Bool.true_and, ← hds]
    exact nlOk_no_nl _ hTLno
  · have htext := (textClean_spec b.text htc).1
    rw [piece_nonempty_text b h, nlOk_append_no_nl _ _ hino, htext, hds,
      List.cons_append, nlOk_nl_cons, not_space_of_digit d hdd,
      show (!false) = true from rfl, Bool.true_and, ← List.cons_append, ← hds,
      nlOk_append_no_nl _ _ hTLno]
    have htno : ∀ c ∈ b.text, c ≠ '\n' :=
      fun c hc => ne_nl_of_no_lb c ((textClean_spec b.text htc).2 c hc)
    have htne : b.text ≠ [] := fun hx => h (by rw [hx]; rfl)
    obtain ⟨e, es, hes, hse⟩ := strip_fixed_head_ex b.text htne htext
    rw [hes, nlOk_nl_cons, hse, show (!false) = true from rfl, Bool.true_and, ← hes]
    exact nlOk_no_nl _ htno

theorem piecesSep_head_digit (b : SrtBlock) (bs : List SrtBlock) (hok : blockOk b) :
    ∃ c cs, piecesSep (b :: bs) = c :: cs ∧ c.isDigit = true := by
  obtain ⟨c, cs, hcs, hcd⟩ := piece_head_digit b hok.1
  cases bs with
  | nil => exact ⟨c, cs, by rw [show piecesSep [b] = piece b from rfl, hcs], hcd⟩
  | cons b2 bs2 =>
    rw [show piecesSep (b :: b2 :: bs2)
        = piece b ++ List.replicate (sepN b) '\n' ++ piecesSep (b2 :: bs2) from rfl]
    refine ⟨c, cs ++ List.replicate (sepN b) '\n' ++ piecesSep (b2 :: bs2), ?_, hcd⟩
    rw [hcs]
    simp only [List.append_assoc, List.cons_append]

theorem dropWhile_replicate_nl (k : Nat) (y : List Char) :
    List.dropWhile isSpace (List.replicate k '\n' ++ y) = List.dropWhile isSpace y := by
  induction k with
  | zero => rfl
  | succ k ih =>
    rw [List.replicate_succ, List.cons_append,
      List.dropWhile_cons_of_pos (by decide), ih]

theorem dropTrailingWS_append_replicate_nl (x : List Char) (k : Nat) :
    dropTrailingWS (x ++ List.replicate k '\n') = dropTrailingWS x := by
  rw [dropTrailingWS, dropTrailingWS, List.reverse_append, List.reverse_replicate,
    dropWhile_replicate_nl]

theorem dropTrailingWS_append_of_ne (x y : List Char) (hy : dropTrailingWS y ≠ []) :
    dropTrailingWS (x ++ y) = x ++ dropTrailingWS y := by
  have h2 : ¬(List.dropWhile isSpace y.reverse).isEmpty = true := by
    intro hx
    rw [List.isEmpty_iff] at hx
    exact hy (by rw [dropTrailingWS, hx]; rfl)
  rw [show dropTrailingWS (x ++ y) = ((x ++ y).reverse.dropWhile isSpace).reverse from rfl,
    show dropTrailingWS y = (y.reverse.dropWhile isSpace).reverse from rfl,
    List.reverse_append, List.dropWhile_append, if_neg h2, List.reverse_append,
    List.reverse_reverse]

theorem piecesSep_no_trailing : ∀ bs : List SrtBlock, bs ≠ [] →
    (∀ b ∈ bs, blockOk b) →
    dropTrailingWS (piecesSep bs) = piecesSep bs ∧ piecesSep bs ≠ [] := by
  intro bs
  induction bs with
  | nil => intro h _; exact absurd rfl h
  | cons b bs2 ih =>
    intro _ hok
    cases bs2 with
    | nil =>
      obtain ⟨y, d, hyd, hd⟩ := piece_ends_nonspace b (hok b (by simp))
      rw [show piecesSep [b] = piece b from rfl, hyd]
      exact ⟨dropTrailingWS_last_nonspace y d hd, by simp⟩
    | cons b2 bs3 =>
      obtain ⟨ih1, ih2⟩ := ih (by simp) (fun x hx => hok x (List.mem_cons_of_mem b hx))
      have hy1 : dropTrailingWS (piecesSep (b2 :: bs3)) ≠ [] := by
        rw [ih1]
        exact ih2
      have hy2 : dropTrailingWS (List.replicate (sepN b) '\n' ++ piecesSep (b2 :: bs3))
          = List.replicate (sepN b) '\n' ++ piecesSep (b2 :: bs3) := by
        rw [dropTrailingWS_append_of_ne _ _ hy1, ih1]
      have hy3 : List.replicate (sepN b) '\n' ++ piecesSep (b2 :: bs3) ≠ [] := by
        intro hx
        exact ih2 (List.append_eq_nil.mp hx).2
      rw [show piecesSep (b :: b2 :: bs3)
          = piece b ++ List.replicate (sepN b) '\n' ++ piecesSep (b2 :: bs3) from rfl,
        List.append_assoc]
      constructor
      · rw [dropTrailingWS_append_of_ne _ _ (by rw [hy2]; exact hy3), hy2]
      · obtain ⟨c, cs, hcs, _⟩ := piece_head_digit b (hok b (by simp)).1
        rw [hcs]
        simp

theorem write_srt_piecesSep : ∀ bs : List SrtBlock, bs ≠ [] →
    ∃ k, write_srt bs = piecesSep bs ++ List.replicate k '\n' := by
  intro bs
  induction bs with
  | nil => intro h; exact absurd rfl h
  | cons b bs2 ih =>
    intro _
    cases bs2 with
    | nil =>
      refine ⟨sepN b, ?_⟩
      rw [write_srt_cons, encodeChunk_eq_piece, show write_srt [] = [] from rfl,
        List.append_nil, show piecesSep [b] = piece b from rfl]
    | cons b2 bs3 =>
      obtain ⟨k, hk⟩ := ih (by simp)
      refine ⟨k, ?_⟩
      rw [write_srt_cons, encodeChunk_eq_piece, hk,
        show piecesSep (b :: b2 :: bs3)
          = piece b ++ List.replicate (sepN b) '\n' ++ piecesSep (b2 :: bs3) from rfl]
      simp only [List.append_assoc]

theorem stripChars_write (bs : List SrtBlock) (hne : bs ≠ [])
    (hok : ∀ b ∈ bs, blockOk b) :
    stripChars (write_srt bs) = piecesSep bs := by
  obtain ⟨k, hk⟩ := write_srt_piecesSep bs hne
  obtain ⟨hA, hBne⟩ := piecesSep_no_trailing bs hne hok
  cases bs with
  | nil => exact absurd rfl hne
  | cons b bs2 =>
    obtain ⟨c, cs, hcs, hcd⟩ := piecesSep_head_digit b bs2 (hok b (by simp))
    rw [stripChars, hk, hcs, List.cons_append,
      List.dropWhile_cons_of_neg (by simp [not_space_of_digit c hcd]),
      ← List.cons_append, ← hcs, dropTrailingWS_append_replicate_nl, hA]

theorem goSplit_piecesSep : ∀ bs : List SrtBlock, bs ≠ [] → (∀ b ∈ bs, blockOk b) →
    goSplit [] none (piecesSep bs) = bs.map piece := by
  intro bs
  induction bs with
  | nil => intro h _; exact absurd rfl h
  | cons b bs2 ih =>
    intro _ hok
    have hp := piece_nlOk b (hok b (by simp))
    cases bs2 with
    | nil =>
      rw [show piecesSep [b] = piece b from rfl, ← List.append_nil (piece b),
        goSplit_scan _ _ _ hp, goSplit_none_nil]
      simp
    | cons b2 bs3 =>
      obtain ⟨c, cs, hcs, hcd⟩ := piecesSep_head_digit b2 bs3 (hok b2 (by simp))
      have hcsp : isSpace c = false := not_space_of_digit c hcd
      rw [show piecesSep (b :: b2 :: bs3)
          = piece b ++ List.replicate (sepN b) '\n' ++ piecesSep (b2 :: bs3) from rfl,
        List.append_assoc, goSplit_scan _ _ _ hp, hcs]
      by_cases htx : stripChars b.text = []
      · rw [show sepN b = 3 by rw [sepN, if_pos htx],
          show (List.replicate 3 '\n' : List Char) ++ c :: cs
            = '\n' :: '\n' :: '\n' :: c :: cs from rfl,
          goSplit_sep3 _ _ c hcsp, ← hcs,
          ih (by simp) (fun x hx => hok x (List.mem_cons_of_mem b hx))]
        simp
      · rw [show sepN b = 2 by rw [sepN, if_neg htx],
          show (List.replicate 2 '\n' : List Char) ++ c :: cs
            = '\n' :: '\n' :: c :: cs from rfl,
          goSplit_sep2 _ _ c hcsp, ← hcs,
          ih (by simp) (fun x hx => hok x (List.mem_cons_of_mem b hx))]
        simp

theorem parseBlocksList_pieces : ∀ bs : List SrtBlock, (∀ b ∈ bs, blockOk b) →
    parseBlocksList (bs.map piece) = .ok (bs.map reparseBlock) := by
  intro bs
  induction bs with
  | nil => intro _; rfl
  | cons b bs2 ih =>
    intro hok
    rw [List.map_cons, parseBlocksList_cons, parseBlock_piece b (hok b (by simp)),
      List.map_cons]
    show (parseBlocksList (bs2.map piece)).bind _ = _
    rw [ih (fun x hx => hok x (List.mem_cons_of_mem b hx))]
    rfl

theorem parse_write_srt (bs : List SrtBlock) (hok : ∀ b ∈ bs, blockOk b) :
    parse_srt (write_srt bs) = .ok (bs.map reparseBlock) := by
  cases bs with
  | nil => rfl
  | cons b bs2 =>
    rw [parse_srt, stripChars_write (b :: bs2) (by simp) hok, splitBlocks,
      goSplit_piecesSep _ (by simp) hok, parseBlocksList_pieces _ hok]

theorem merge_go_idx_le (cues : List SrtBlock) : ∀ (ps : List (List Char)) (idx : Int)
    (i : Nat), 0 ≤ idx → ∀ b ∈ merge_go cues ps idx i, 0 ≤ b.idx := by
  intro ps
  induction ps with
  | nil =>
    intro idx i _ b hb
    rw [merge_go_nil] at hb
    exact absurd hb (List.not_mem_nil b)
  | cons p ps2 ih =>
    intro idx i hidx b hb
    rw [merge_go_cons] at hb
    cases hm : attemptGo (normalize_text p) [] none (cues.drop i) with
    | matched k s e =>
      rw [hm] at hb
      rcases List.mem_cons.mp hb with hb | hb
      · rw [hb]
        exact hidx
      · exact ih (idx + 1) (i + k) (by omega) b hb
    | aborted =>
      rw [hm] at hb
      exact ih idx i hidx b hb
    | exhausted =>
      rw [hm] at hb
      exact ih idx cues.length hidx b hb

theorem rtQ_close (t : ℚ) : |rtQ t - t| ≤ 1 / 1000 := by
  have h := pyRound_close ((t - ((⌊t⌋ : Int) : ℚ)) * 1000)
  rw [rtQ]
  have he : ((⌊t⌋ : Int) : ℚ)
        + ((pyRound ((t - ((⌊t⌋ : Int) : ℚ)) * 1000) : Int) : ℚ) / 1000 - t
      = (((pyRound ((t - ((⌊t⌋ : Int) : ℚ)) * 1000) : Int) : ℚ)
        - (t - ((⌊t⌋ : Int) : ℚ)) * 1000) / 1000 := by
    ring
  rw [he, abs_div, abs_of_pos (show (0 : ℚ) < 1000 by norm_num)]
  linarith

/-- C4 (amended): whenever every block committed by the aligner has
nonnegative start and end times and a text free of line breaks and of
leading or trailing whitespace, decoding the encoded aligned blocks
succeeds and yields exactly one cue per block, in order, with the same
index, the identical text, and start and end timestamps within one
millisecond of the block's (the encoder writes the rounded millisecond,
so the recovered value is floor(t) + round(frac*1000)/1000).  Without
the text restriction the claim fails: a paragraph containing a blank
line is truncated by the round trip (see the counterexample). -/
theorem C4_round_trip (cues : List SrtBlock) (paragraphs : List (List Char))
    (hok : ∀ b ∈ merge_srt_by_paragraph cues paragraphs,
      0 ≤ b.start ∧ 0 ≤ b.stop ∧ textClean b.text = true) :
    parse_srt (write_srt (merge_srt_by_paragraph cues paragraphs)) =
      .ok ((merge_srt_by_paragraph cues paragraphs).map reparseBlock) ∧
    ∀ b ∈ merge_srt_by_paragraph cues paragraphs,
      (reparseBlock b).text = b.text ∧ (reparseBlock b).idx = b.idx ∧
      |(reparseBlock b).start - b.start| ≤ 1 / 1000 ∧
      |(reparseBlock b).stop - b.stop| ≤ 1 / 1000 := by
  have hidx : ∀ b ∈ merge_srt_by_paragraph cues paragraphs, 0 ≤ b.idx := by
    intro b hb
    exact merge_go_idx_le cues paragraphs 1 0 (by norm_num) b hb
  constructor
  · exact parse_write_srt _
      (fun b hb => ⟨hidx b hb, (hok b hb).1, (hok b hb).2.1, (hok b hb).2.2⟩)
  · intro b hb
    exact ⟨rfl, rfl, rtQ_close b.start, rtQ_close b.stop⟩

/-- Witness for C4 (amended): a two-cue, one-paragraph alignment whose
committed block satisfies the side conditions round-trips exactly up to
millisecond rounding. -/
theorem C4_round_trip_witness :
    (∀ b ∈ merge_srt_by_paragraph [⟨1, 0, 1, "Hello".data⟩, ⟨2, 1, 2, "world".data⟩]
        ["Hello world".data], 0 ≤ b.start ∧ 0 ≤ b.stop ∧ textClean b.text = true) ∧
    (parse_srt (write_srt (merge_srt_by_paragraph
        [⟨1, 0, 1, "Hello".data⟩, ⟨2, 1, 2, "world".data⟩] ["Hello world".data])) =
      .ok ((merge_srt_by_paragraph [⟨1, 0, 1, "Hello".data⟩, ⟨2, 1, 2, "world".data⟩]
        ["Hello world".data]).map reparseBlock) ∧
      ∀ b ∈ merge_srt_by_paragraph [⟨1, 0, 1, "Hello".data⟩, ⟨2, 1, 2, "world".data⟩]
        ["Hello world".data],
        (reparseBlock b).text = b.text ∧ (reparseBlock b).idx = b.idx ∧
        |(reparseBlock b).start - b.start| ≤ 1 / 1000 ∧
        |(reparseBlock b).stop - b.stop| ≤ 1 / 1000) :=
  ⟨by with_unfolding_all decide,
    C4_round_trip [⟨1, 0, 1, "Hello".data⟩, ⟨2, 1, 2, "world".data⟩]
      ["Hello world".data] (by with_unfolding_all decide)⟩

/-- Counterexample to C4 as stated: a paragraph containing a blank line
becomes a committed block whose text does not survive the round trip.
The written chunk's internal blank line acts as a block separator on
re-parsing, so the decoded cue keeps only the part before the blank
line and the rest of the text is lost, not merely perturbed by
millisecond rounding. -/
theorem C4_counterexample :
    merge_srt_by_paragraph [⟨1, 0, 1, "a".data⟩, ⟨2, 1, 2, "b".data⟩] ["a\n\nb".data]
      = [⟨1, 0, 2, "a\n\nb".data⟩] ∧
    parse_srt (write_srt [⟨1, 0, 2, "a\n\nb".data⟩]) = .ok [⟨1, 0, 2, "a".data⟩] ∧
    ("a".data : List Char) ≠ "a\n\nb".data := by
  with_unfolding_all decide
